import Mathlib

/-!
Verification of the tool-schema generator (JSDoc comments to OpenAI
function-calling JSON schemas).

The development shallowly embeds the program's core:

* a JSON value model (`Json`) standing for the plain JavaScript objects the
  program builds, with association lists in insertion order and JS-style
  key assignment (overwrite in place, append when new);
* the typed dialect resolver (`buildJsonSchema` over `TsType`, mirroring
  `buildJsonSchema`/`removeUndefinedFromUnion` of the TS parser), where
  `TsType` is a shallow model of the compiler type objects the source reads
  through the type-checker API: a union or intersection carries the
  checker's `getProperties()` answer (the constituents' common apparent
  properties, resp. the combined member set) as model data, since the
  checker derives it from the ambient lib declarations; a type literal with
  no members falls through to the fallback branch exactly as in the source;
* the untyped dialect extractor of `src/parser/parseJs.ts` (`parseType`,
  `parseParamAndPropertyLines`, `buildParamSchemas`, `findNextFunctionName`,
  `parseDocBlock`, and the per-block loop `processBlocks`), with the
  JavaScript regular expressions implemented as deterministic token
  matchers over character lists (each regex of the source is transcribed
  token by token; all of them are backtracking-free);
* the legacy untyped extractor of `src/parser.ts` (plain `@param type name
  desc` lines, `@notice`), kept because one scenario of the spec is written
  in its syntax;
* the schema assembler `generateSchema` of the current generator.

JavaScript semantics mirrored throughout: `undefined` optional fields are
`Option`/`false` defaults, truthiness of strings is non-emptiness, arrays
are always truthy, `Number(x)` parsing is modelled by `jsNumberLike` for
the ASCII numeric grammar, and `String.prototype.trim` by `jsTrim` over the
ASCII whitespace set.
-/

/-! ## A model of plain JavaScript/JSON values -/

inductive Json where
  | str : String → Json
  | arr : List Json → Json
  | obj : List (String × Json) → Json

/-- JS object field assignment `o[k] = v`: overwrite in place when the key
exists (keeping its position), append otherwise. -/
def objUpsert {α : Type} : List (String × α) → String → α → List (String × α)
  | [], k, v => [(k, v)]
  | (k', v') :: rest, k, v =>
    if k' == k then (k', v) :: rest else (k', v') :: objUpsert rest k v

/-- First binding of a key in an association list (keys are unique in every
object the program builds, since all writes go through `objUpsert`). -/
def lookupField {α : Type} : List (String × α) → String → Option α
  | [], _ => none
  | (k', v') :: rest, k => if k' == k then some v' else lookupField rest k

def Json.getField : Json → String → Option Json
  | .obj fs, k => lookupField fs k
  | _, _ => none

/-- JS object spread followed by one assignment, as in the assembler's
`... schema` then `description`: on a non-object the spread contributes
nothing and only the new field remains. -/
def Json.setField : Json → String → Json → Json
  | .obj fs, k, v => .obj (objUpsert fs k v)
  | _, k, v => .obj [(k, v)]

/-! ## Character and string helpers (JS semantics, ASCII range) -/

/-- The whitespace characters of JS `\s` and `trim` that occur in ASCII
source text. -/
def wsChar (c : Char) : Bool :=
  c == ' ' || c == '\t' || c == '\n' || c == '\r' || c == '\x0b' || c == '\x0c'

/-- JS `\w`. -/
def wordChar (c : Char) : Bool :=
  ('a' ≤ c && c ≤ 'z') || ('A' ≤ c && c ≤ 'Z') || ('0' ≤ c && c ≤ '9') || c == '_'

def digitChar (c : Char) : Bool := '0' ≤ c && c ≤ '9'

/-- JS `String.prototype.trim`. -/
def jsTrim (s : String) : String :=
  String.mk (((s.data.dropWhile wsChar).reverse.dropWhile wsChar).reverse)

/-- ASCII lower-casing, as `toLowerCase` acts on the program's inputs. -/
def lowerChar (c : Char) : Char :=
  if 'A' ≤ c && c ≤ 'Z' then Char.ofNat (c.toNat + 32) else c

def asciiLower (s : String) : String := String.mk (s.data.map lowerChar)

/-- JS `String.prototype.split` with a single-character separator: always at
least one piece, empty pieces kept. -/
def splitChar (sep : Char) : List Char → List (List Char)
  | [] => [[]]
  | c :: rest =>
    let r := splitChar sep rest
    if c == sep then [] :: r
    else match r with
      | [] => [[c]]
      | h :: t => (c :: h) :: t

def strStartsWith (s pre : String) : Bool := pre.data.isPrefixOf s.data

def strEndsWith (s post : String) : Bool := post.data.isSuffixOf s.data

def containsChar (s : String) (c : Char) : Bool := s.data.contains c

/-- JS `Array.prototype.join(", ")` over strings. -/
def commaJoin : List String → String
  | [] => ""
  | [s] => s
  | s :: rest => s ++ ", " ++ commaJoin rest

/-- Digits run used by the JS number grammar. -/
def allIn (p : Char → Bool) (cs : List Char) : Bool := cs.all p

def hexDigit (c : Char) : Bool :=
  digitChar c || ('a' ≤ c && c ≤ 'f') || ('A' ≤ c && c ≤ 'F')

/-- The exponent part of a decimal literal: `e`/`E`, optional sign, one or
more digits. Empty input means no exponent, which is fine. -/
def jsExponentOk : List Char → Bool
  | [] => true
  | c :: rest =>
    if c == 'e' || c == 'E' then
      match rest with
      | s :: more =>
        if s == '+' || s == '-' then more ≠ [] && allIn digitChar more
        else rest ≠ [] && allIn digitChar rest
      | [] => false
    else false

/-- Decimal body: digits, or digits "." digits*, or "." digits+, each with an
optional exponent tail. -/
def jsDecimalOk (cs : List Char) : Bool :=
  let intPart := cs.takeWhile digitChar
  let afterInt := cs.drop intPart.length
  match afterInt with
  | [] => intPart ≠ []
  | '.' :: frac =>
    let fracPart := frac.takeWhile digitChar
    let tail := frac.drop fracPart.length
    (intPart ≠ [] || fracPart ≠ []) && jsExponentOk tail
  | _ => intPart ≠ [] && jsExponentOk afterInt

/-- Whether JS `Number(s)` yields a non-NaN value, for the ASCII numeric
grammar the program's enum values can use: the empty string is numeric
(`Number("") = 0`); a `+`/`-` sign is allowed only before a decimal literal
or `Infinity` (ECMAScript puts the sign in `StrDecimalLiteral` alone, so
`Number("+0x10")` is NaN); an unsigned literal may also be a radix literal
(`0x`/`0o`/`0b`). -/
def jsNumberLike (s : String) : Bool :=
  let cs := (jsTrim s).data
  match cs with
  | [] => true
  | c :: rest =>
    if c == '+' || c == '-' then rest == "Infinity".data || jsDecimalOk rest
    else
      (cs == "Infinity".data) ||
      (match cs with
       | '0' :: x :: ds =>
         if x == 'x' || x == 'X' then ds ≠ [] && allIn hexDigit ds
         else if x == 'o' || x == 'O' then ds ≠ [] && allIn (fun d => '0' ≤ d && d ≤ '7') ds
         else if x == 'b' || x == 'B' then ds ≠ [] && allIn (fun d => d == '0' || d == '1') ds
         else jsDecimalOk cs
       | _ => jsDecimalOk cs)

/-! ## Deterministic matchers for the source's regular expressions

Every regex of the source is a sequence of literals, greedy character-class
runs and single capture groups; none of them needs backtracking (each greedy
run's class is disjoint from the token that follows it, as checked pattern
by pattern where they are defined below). A token list is matched at one
position by `matchSeq`; `scanGo` mirrors a global `exec` loop, `searchFirst`
a single `exec`, and `searchBound` a search whose pattern starts with a word
boundary. -/

inductive Tok where
  | lit (s : String)
  | ws0
  | ws1
  | capCls (p : Char → Bool) (min1 : Bool)
  | cls0 (p : Char → Bool)
  | capRestLine

def countWhile (p : Char → Bool) : List Char → Nat
  | [] => 0
  | c :: rest => if p c then countWhile p rest + 1 else 0

/-- Match one token at the head of the input: the captured text, if the
token captures, and how many characters were consumed. -/
def matchTok : Tok → List Char → Option (Option String × Nat)
  | .lit s, cs => if s.data.isPrefixOf cs then some (none, s.data.length) else none
  | .ws0, cs => some (none, countWhile wsChar cs)
  | .ws1, cs =>
    let k := countWhile wsChar cs
    if k == 0 then none else some (none, k)
  | .capCls p min1, cs =>
    let k := countWhile p cs
    if min1 && k == 0 then none else some (some (String.mk (cs.take k)), k)
  | .cls0 p, cs => some (none, countWhile p cs)
  | .capRestLine, cs =>
    let k := countWhile (fun c => !(c == '\n' || c == '\r')) cs
    some (some (String.mk (cs.take k)), k)

def matchSeq : List Tok → List Char → Option (List String × Nat)
  | [], _ => some ([], 0)
  | t :: ts, cs =>
    match matchTok t cs with
    | none => none
    | some (cap, k) =>
      match matchSeq ts (cs.drop k) with
      | none => none
      | some (caps, k2) =>
        some ((match cap with | some c => c :: caps | none => caps), k + k2)

/-- One step per character position, continuing after each match as a global
JS regex does (`lastIndex` advances past the match; a zero-width match would
advance by one, like the JS engine). The fuel is the input length, which
bounds the number of positions. -/
def scanGo (toks : List Tok) : Nat → List Char → List (List String)
  | 0, _ => []
  | _ + 1, [] => []
  | fuel + 1, c :: rest =>
    match matchSeq toks (c :: rest) with
    | some (caps, k) =>
      if k == 0 then scanGo toks fuel rest
      else caps :: scanGo toks fuel ((c :: rest).drop k)
    | none => scanGo toks fuel rest

def scanAll (toks : List Tok) (s : String) : List (List String) :=
  scanGo toks s.data.length s.data

/-- Leftmost single match, like a one-shot `exec`. -/
def searchFirst (toks : List Tok) : List Char → Option (List String)
  | [] => none
  | c :: rest =>
    match matchSeq toks (c :: rest) with
    | some (caps, _) => some caps
    | none => searchFirst toks rest

/-- Leftmost match for a pattern beginning with `\b`: positions directly
after a word character are skipped. -/
def searchBound (toks : List Tok) : Bool → List Char → Option (List String)
  | _, [] => none
  | prevW, c :: rest =>
    if prevW then searchBound toks (wordChar c) rest
    else match matchSeq toks (c :: rest) with
      | some (caps, _) => some caps
      | none => searchBound toks (wordChar c) rest

/-- Anchored match at the start of the string (`^...`), returning only the
captures. -/
def anchoredMatch (toks : List Tok) (s : String) : Option (List String) :=
  (matchSeq toks s.data).map (fun r => r.1)

/-! ## Typed dialect: the type model and the schema resolver

`TsType` is a shallow model of the type objects the TS parser reads through
the checker. Union types are kept as member lists (the checker hands the
parser flattened unions whose members are themselves not unions); an object
type carries `(name, optional flag, member type)` triples, where the flag
models `SymbolFlags.Optional`; `arrayNoArg` is an array type without
recoverable type arguments; `anyT` is the checker's `any` type; `other` is
any type none of the resolver's tests recognizes.

A union or intersection type carries, besides its member list, the
checker's answer to `type.getProperties()` as model data: for a union the
constituents' common apparent properties — each carried with the merged
optional flag and the checker's union of the members' property types — and
for an intersection the combined member set. The answer is carried rather
than computed because the checker derives it from the ambient declarations
(the apparent types of primitives come from the lib files), which are not
part of the program under study; for a union it is non-empty whenever every
member's apparent type declares some shared name, e.g. for a union of
object types with a common member, or for `number | string` through the
lib members `toString` and `valueOf`, and it is empty whenever some member
(such as `undefined`) has no apparent members at all. -/

inductive TsType where
  | tString
  | tNumber
  | tBoolean
  | tUndefined
  | anyT
  | other
  | stringLit (value : String)
  | arrayOf (elem : TsType)
  | arrayNoArg
  | objectT (props : List (String × Bool × TsType))
  | union (types : List TsType) (sharedProps : List (String × Bool × TsType))
  | intersection (types : List TsType) (combinedProps : List (String × Bool × TsType))

/-- The `t.flags & TypeFlags.Undefined` test. -/
def undefFlag : TsType → Bool
  | .tUndefined => true
  | _ => false

def isUnionT : TsType → Bool
  | .union _ _ => true
  | _ => false

/-- Source `isOptionalProp`: the symbol's optional flag, or a union
type with an undefined member. -/
def isOptionalProp (flag : Bool) (propType : TsType) : Bool :=
  flag ||
    (match propType with
     | .union ts _ => ts.any undefFlag
     | _ => false)

/-- Source `removeUndefinedFromUnion`: on a union, drop the undefined
members; all gone means the checker's any type, exactly one survivor is
returned alone, two or more yield `null` (`none`) so the caller keeps the
original union. A non-union comes back unchanged. -/
def removeUndefinedFromUnion (t : TsType) : Option TsType :=
  match t with
  | .union ms _ =>
    match ms.filter (fun x => !undefFlag x) with
    | [] => some .anyT
    | [x] => some x
    | _ => none
  | _ => some t

/-- The `s.type === "any" && Object.keys(s).length === 1` test of the
resolver's union branch. -/
def isBareAny (j : Json) : Bool :=
  match j with
  | .obj fs =>
    (match lookupField fs "type" with
     | some (.str v) => v == "any"
     | _ => false) && fs.length == 1
  | _ => false

/-- The `v.enum && v.type === "string"` test (an array is truthy, so the
test is presence of the field). -/
def isStringEnumSchema (j : Json) : Bool :=
  (j.getField "enum").isSome &&
    (match j.getField "type" with
     | some (.str v) => v == "string"
     | _ => false)

/-- The `v.enum ?? []` read of the union branch's merge. -/
def enumArr (j : Json) : List Json :=
  match j.getField "enum" with
  | some (.arr xs) => xs
  | _ => []

/-- The `type.getProperties()` call: an object type answers its members,
a union or intersection answers the property set the checker computed for
it (carried in the model, see `TsType`). The remaining types answer no
properties: primitives and arrays hold their members only on their
apparent lib types, which `getProperties()` does not consult, and they are
in any case intercepted by earlier branches of the resolver. -/
def getPropertiesOf : TsType → List (String × Bool × TsType)
  | .objectT props => props
  | .union _ sharedProps => sharedProps
  | .intersection _ combinedProps => combinedProps
  | _ => []

mutual

/-- Source `buildJsonSchema`: first strip undefined from a union (a
`null` answer keeps the original type), then classify. -/
def buildJsonSchema (t : TsType) : Json :=
  buildCore ((removeUndefinedFromUnion t).getD t)
termination_by 2 * sizeOf t + 1
decreasing_by
  have h : sizeOf ((removeUndefinedFromUnion t).getD t) ≤ sizeOf t := by
    unfold removeUndefinedFromUnion
    cases t with
    | union ms sp =>
      simp only
      split
      · simp [TsType.anyT.sizeOf_spec, TsType.union.sizeOf_spec]
        omega
      · rename_i x hx'
        have hx : x ∈ ms := by
          obtain ⟨l1, l2, hl, -⟩ := List.filter_eq_cons_iff.mp hx'
          subst hl; simp
        have := List.sizeOf_lt_of_mem hx
        simp only [Option.getD_some, TsType.union.sizeOf_spec]
        omega
      · simp
    | _ => simp
  omega

/-- The classification body of `buildJsonSchema`, in the source's test
order: string literal, primitive flags, array, then the object test —
`isClassOrInterface() || type.getProperties().length > 0`, which fires
before the union and intersection tests are ever reached, so a union or
intersection whose property set is non-empty is resolved as an object —
then union, intersection, fallback. `isClassOrInterface()` is false for
every modelled type (type literals, unions, intersections, primitives), so
the object test is the property count. The object branch gathers one
property schema per member and pushes the member on `required` exactly
when `isOptionalProp` is false; the union branch drops bare-any member
schemas, collapses an empty or singleton remainder, merges all-string-enum
members into one enum, and wraps the rest in `oneOf`. -/
def buildCore (t : TsType) : Json :=
  match t with
  | .stringLit v => Json.obj [("type", Json.str "string"), ("enum", Json.arr [Json.str v])]
  | .tString => Json.obj [("type", Json.str "string")]
  | .tNumber => Json.obj [("type", Json.str "number")]
  | .tBoolean => Json.obj [("type", Json.str "boolean")]
  | .arrayOf e => Json.obj [("type", Json.str "array"), ("items", buildJsonSchema e)]
  | .arrayNoArg =>
    Json.obj [("type", Json.str "array"), ("items", Json.obj [("type", Json.str "any")])]
  | t =>
    if 0 < (getPropertiesOf t).length then
      Json.obj [("type", Json.str "object"),
        ("properties", Json.obj
          (((getPropertiesOf t).attach.map (fun p => (p.1.1, buildJsonSchema p.1.2.2))).foldl
            (fun acc pr => objUpsert acc pr.1 pr.2) [])),
        ("required", Json.arr
          (((getPropertiesOf t).filter (fun q => !isOptionalProp q.2.1 q.2.2)).map
            (fun q => Json.str q.1)))]
    else
      match t with
      | .union ts _ =>
        let subSchemas := ts.attach.map (fun x => buildJsonSchema x.1)
        let nonAny := subSchemas.filter (fun s => !isBareAny s)
        match nonAny with
        | [] => Json.obj [("type", Json.str "any")]
        | [s] => s
        | ss =>
          if ss.all isStringEnumSchema then
            Json.obj [("type", Json.str "string"), ("enum", Json.arr (ss.flatMap enumArr))]
          else Json.obj [("oneOf", Json.arr ss)]
      | .intersection ts _ =>
        Json.obj [("allOf", Json.arr (ts.attach.map (fun x => buildJsonSchema x.1)))]
      | _ => Json.obj [("type", Json.str "any")]
termination_by 2 * sizeOf t
decreasing_by
  · simp only [TsType.arrayOf.sizeOf_spec]
    omega
  · have h1 := List.sizeOf_lt_of_mem p.2
    have h2 : sizeOf p.1.2.2 < sizeOf p.1 := by
      obtain ⟨⟨a, b, c⟩, hp⟩ := p
      simp only [Prod.mk.sizeOf_spec]
      omega
    have h3 : sizeOf (getPropertiesOf t) ≤ sizeOf t := by
      cases t <;> simp [getPropertiesOf]
    omega
  · have h1 := List.sizeOf_lt_of_mem x.2
    simp only [TsType.union.sizeOf_spec]
    omega
  · have h1 := List.sizeOf_lt_of_mem x.2
    simp only [TsType.intersection.sizeOf_spec]
    omega

end

/-- A union the checker reports common apparent properties for: the object
types `\x7b kind: string; x: number \x7d` and `\x7b kind: string \x7d`
share the member `kind`, so `type.getProperties()` answers the merged
symbol `kind : string` (the union of two identical member types collapses
to that type), required in both members. -/
def sharedKindUnion : TsType :=
  .union
    [.objectT [("kind", false, .tString), ("x", false, .tNumber)],
     .objectT [("kind", false, .tString)]]
    [("kind", false, .tString)]

/-! ## Typed dialect: parameters -/

/-- A parameter declaration as the TS parser sees it: a plain identifier
with an optional type annotation, or an object binding pattern whose bound
element names are resolved against the annotated type. -/
inductive TsParamDecl where
  | ident (name : String) (type : Option TsType)
  | destructured (elementNames : List String) (type : Option TsType)

/-- Source `findJsDocParam` plus comment extraction: first doc tag whose name matches,
its comment trimmed, else the empty string. -/
def jsDocDescription (tags : List (String × String)) (n : String) : String :=
  match lookupField tags n with
  | some c => jsTrim c
  | none => ""

/-- The `type.getProperty(name)` call as the checker answers it for the modelled
types: a member of an object type, nothing otherwise. -/
def getProperty : TsType → String → Option (String × Bool × TsType)
  | .objectT props, n => props.find? (fun p => p.1 == n)
  | _, _ => none

/-- Source `getSubPropertyType`: the any type when the parameter has
no annotation or the member is absent, else the member's type. -/
def getSubPropertyType (paramType : Option TsType) (propName : String) : TsType :=
  match paramType with
  | none => .anyT
  | some pt =>
    match getProperty pt propName with
    | none => .anyT
    | some pr => pr.2.2

/-- The record both extractors hand the assembler (the TS parser never sets
`enum` or `isOptional`, which is `none`/`false` here, JS `undefined`). -/
structure ParsedParamSchema where
  name : String
  description : String
  schema : Json
  enumVals : Option (List String)
  isOptional : Bool

/-- Source `buildParamSchema` (a non-destructured parameter). -/
def buildParamSchema (name : String) (ty : Option TsType)
    (tags : List (String × String)) : ParsedParamSchema :=
  match ty with
  | none => ⟨name, jsDocDescription tags name, Json.obj [("type", Json.str "any")], none, false⟩
  | some t => ⟨name, jsDocDescription tags name, buildJsonSchema t, none, false⟩

/-- Source `expandParameters`: a destructured pattern expands each
bound field into its own top-level entry, anything else goes through
`buildParamSchema`. -/
def expandParameters (params : List TsParamDecl)
    (tags : List (String × String)) : List ParsedParamSchema :=
  params.flatMap (fun p =>
    match p with
    | .destructured names ty =>
      names.map (fun pn =>
        ⟨pn, jsDocDescription tags pn, buildJsonSchema (getSubPropertyType ty pn), none, false⟩)
    | .ident n ty => [buildParamSchema n ty tags])

/-! ## The schema assembler (`generateSchema` of the current generator) -/

/-- One parsed function: description, recovered name, parameters in
declaration order. (Source name: `ParsedAnnotation`.) -/
structure ParsedAnnotationT where
  notice : String
  functionName : String
  params : List ParsedParamSchema

/-- The per-parameter schema the assembler stores: the parser's fragment
with the doc description written over it, and the explicit enum attached
when present and non-empty. -/
def finalParamSchema (p : ParsedParamSchema) : Json :=
  let s1 := Json.setField p.schema "description" (Json.str p.description)
  match p.enumVals with
  | some vs => if vs.length > 0 then Json.setField s1 "enum" (Json.arr (vs.map Json.str)) else s1
  | none => s1

/-- One `params.forEach` step of the assembler: store the property, and push
the name on `required` iff `isOptional` is falsy. -/
def assembleStep (acc : List (String × Json) × List String) (p : ParsedParamSchema) :
    List (String × Json) × List String :=
  (objUpsert acc.1 p.name (finalParamSchema p),
   if p.isOptional then acc.2 else acc.2 ++ [p.name])

/-- Source `generateSchema` of the current generator. -/
def generateSchema (a : ParsedAnnotationT) : Json :=
  let pr := a.params.foldl assembleStep ([], [])
  Json.obj [("type", Json.str "function"),
    ("function", Json.obj [
      ("name", Json.str a.functionName),
      ("description", Json.str a.notice),
      ("parameters", Json.obj [
        ("type", Json.str "object"),
        ("properties", Json.obj pr.1),
        ("required", Json.arr (pr.2.map Json.str))])])]

/-- The `required` array of an assembled document. -/
def docRequired (j : Json) : List Json :=
  match j.getField "function" with
  | some f =>
    match f.getField "parameters" with
    | some p =>
      match p.getField "required" with
      | some (.arr xs) => xs
      | _ => []
    | _ => []
  | _ => []

/-- The `properties` object of an assembled document, as its binding list. -/
def docProps (j : Json) : List (String × Json) :=
  match j.getField "function" with
  | some f =>
    match f.getField "parameters" with
    | some p =>
      match p.getField "properties" with
      | some (.obj fs) => fs
      | _ => []
    | _ => []
  | _ => []

/-! ## Untyped dialect: the current extractor (`src/parser/parseJs.ts`) -/

/-- The closed type-token vocabulary (`JSON_SCHEMA_TYPES`). -/
def JSON_SCHEMA_TYPES : List String :=
  ["string", "number", "integer", "boolean", "object", "array", "null"]

/-- What `parseType` returns. -/
structure TypeInfo where
  isEnum : Bool
  finalType : String
  enumValues : Option (List String)
  unionSubTypes : Option (List String)

/-- The members of a pipe-delimited compound token, as `parseType` computes
them: lower-cased first, split on the pipe, each piece trimmed. -/
def unionMembers (rawType : String) : List String :=
  (splitChar '|' (asciiLower rawType).data).map (fun l => jsTrim (String.mk l))

def invalidUnionMembers (rawType : String) : List String :=
  (unionMembers rawType).filter (fun s => !(JSON_SCHEMA_TYPES.contains s))

/-- Source `parseType`: a pipe means a union whose members must each
be in the vocabulary (all offenders reported at once), the literal `enum`
token is marked and typed `any` for later refinement, anything else must
itself be in the vocabulary. -/
def parseType (rawType : String) : Except String TypeInfo :=
  let finalType := asciiLower rawType
  if containsChar finalType '|' then
    let subs := unionMembers rawType
    let invalid := invalidUnionMembers rawType
    if invalid.length > 0 then
      .error ("Invalid type(s) in union: " ++ commaJoin invalid ++
        ". Valid types are: " ++ commaJoin JSON_SCHEMA_TYPES ++ ".")
    else .ok ⟨false, "union", none, some subs⟩
  else if finalType == "enum" then .ok ⟨true, "any", none, none⟩
  else if !(JSON_SCHEMA_TYPES.contains finalType) then
    .error ("Invalid type: " ++ rawType ++ ". Valid types are: " ++
      commaJoin JSON_SCHEMA_TYPES ++ ".")
  else .ok ⟨false, finalType, none, none⟩

/-- The raw declaration record of the untyped dialect. -/
structure RawParam where
  isProperty : Bool
  isEnum : Bool
  type : String
  name : String
  description : String
  isOptional : Bool
  enumValues : Option (List String)
  unionSubTypes : Option (List String)

/-- Source `extractOptionalName`: brackets around the name mean optional. -/
def extractOptionalName (bracketed : String) : Bool × String :=
  if strStartsWith bracketed "[" && strEndsWith bracketed "]" then
    (true, jsTrim (String.mk (bracketed.data.drop 1).dropLast))
  else (false, bracketed)

/-- The enum value list pattern on the rest of a param line, regex
`[\s*([^\]]+)]\s*(.*)` anchored at the start (brackets escaped in the
source): the bracketed text and what follows. -/
def bracketListMatch (rest : String) : Option (String × String) :=
  match anchoredMatch
      [Tok.lit "[", .ws0, .capCls (fun c => !(c == ']')) true, .lit "]", .ws0, .capRestLine]
      rest with
  | some [listStr, after] => some (listStr, after)
  | _ => none

/-- The `rest.replace` strip of the leading dash/whitespace run. -/
def stripDashWs (s : String) : String :=
  String.mk (s.data.dropWhile (fun c => c == '-' || wsChar c))

/-- Processing of one `@param` regex match (captures: braced type token,
possibly bracketed name, rest of line), as the first loop of
`parseParamAndPropertyLines` does it: trim the captures, read optionality
off the name, classify the type token, and for an `enum` token refine the
type and values from the bracketed list when it is present. -/
def processParamMatch (m1 m2 m3 : String) : Except String RawParam :=
  let rawType := jsTrim m1
  let bracketedName := jsTrim m2
  let rest0 := jsTrim m3
  let optName := extractOptionalName bracketedName
  match parseType rawType with
  | .error e => .error e
  | .ok ti =>
    let step :=
      if ti.isEnum then
        match bracketListMatch rest0 with
        | some (listStr, after) =>
          let enumer := (splitChar ',' listStr.data).map (fun l => jsTrim (String.mk l))
          let ft := if enumer.all jsNumberLike then "number" else "string"
          ({ ti with finalType := ft, enumValues := some enumer }, jsTrim after)
        | none => (ti, rest0)
      else (ti, rest0)
    .ok ⟨false, step.1.isEnum, step.1.finalType, optName.2, stripDashWs step.2, optName.1,
      step.1.enumValues, step.1.unionSubTypes⟩

/-- Processing of one `@property` regex match: the same, except no enum
list refinement and the property flag set. -/
def processPropertyMatch (m1 m2 m3 : String) : Except String RawParam :=
  let rawType := jsTrim m1
  let bracketedName := jsTrim m2
  let rest0 := jsTrim m3
  let optName := extractOptionalName bracketedName
  match parseType rawType with
  | .error e => .error e
  | .ok ti =>
    .ok ⟨true, ti.isEnum, ti.finalType, optName.2, stripDashWs rest0, optName.1,
      ti.enumValues, ti.unionSubTypes⟩

/-- The `@param` regex of the source, token for token: `@param`, optional
whitespace, a braced non-empty type token, whitespace, a non-empty
non-space name, optional whitespace, the rest of the line. -/
def paramToks : List Tok :=
  [.lit "@param", .ws0, .lit "\x7b", .capCls (fun c => !(c == '\x7d')) true, .lit "\x7d",
   .ws1, .capCls (fun c => !(wsChar c)) true, .ws0, .capRestLine]

/-- The `@property` regex, identical but for the tag. -/
def propertyToks : List Tok :=
  [.lit "@property", .ws0, .lit "\x7b", .capCls (fun c => !(c == '\x7d')) true, .lit "\x7d",
   .ws1, .capCls (fun c => !(wsChar c)) true, .ws0, .capRestLine]

def tripleOf (caps : List String) : Option (String × String × String) :=
  match caps with
  | [a, b, c] => some (a, b, c)
  | _ => none

def scanParamMatches (doc : String) : List (String × String × String) :=
  (scanAll paramToks doc).filterMap tripleOf

def scanPropertyMatches (doc : String) : List (String × String × String) :=
  (scanAll propertyToks doc).filterMap tripleOf

/-- Sequencing with the JS exception semantics: the first thrown error
aborts the whole traversal. -/
def mapExcept {α β : Type} (f : α → Except String β) : List α → Except String (List β)
  | [] => .ok []
  | a :: rest =>
    match f a with
    | .error e => .error e
    | .ok b =>
      match mapExcept f rest with
      | .error e => .error e
      | .ok bs => .ok (b :: bs)

/-- Source `parseParamAndPropertyLines`: all `@param` matches processed first, then
all `@property` matches, in source order; any invalid type token throws. -/
def parseParamAndPropertyLines (doc : String) : Except String (List RawParam) :=
  match mapExcept (fun t => processParamMatch t.1 t.2.1 t.2.2) (scanParamMatches doc) with
  | .error e => .error e
  | .ok ps =>
    match mapExcept (fun t => processPropertyMatch t.1 t.2.1 t.2.2) (scanPropertyMatches doc) with
    | .error e => .error e
    | .ok prs => .ok (ps ++ prs)

/-- One line of the leading description: strip the `*` decoration (leading
whitespace, a star, one optional space — when that pattern is absent the
line is kept whole) and trim. -/
def stripStarLine (l : List Char) : String :=
  match l.dropWhile wsChar with
  | '*' :: rest =>
    jsTrim (String.mk
      (match rest with
       | c :: r => if wsChar c then r else rest
       | [] => []))
  | _ => jsTrim (String.mk l)

def eldGo : List (List Char) → String → String
  | [], acc => acc
  | l :: ls, acc =>
    let line := stripStarLine l
    if strStartsWith line "@" then acc
    else if line == "" then eldGo ls acc
    else eldGo ls (if acc == "" then line else acc ++ " " ++ line)

/-- Source `extractLeadingDescription`: the free-text lines before the first tag,
joined with single spaces. -/
def extractLeadingDescription (doc : String) : String :=
  eldGo (splitChar '\n' doc.data) ""

/-- The `@description` regex: the tag, whitespace, one non-empty line. -/
def descToks : List Tok :=
  [.lit "@description", .ws1, .capCls (fun c => !(c == '\n' || c == '\r')) true]

/-- Source `parseDocBlock` of the current extractor: the explicit `@description`
text when present (non-empty), else the leading free text; and the raw
declaration lines. -/
def parseDocBlock (doc : String) : Except String (String × List RawParam) :=
  let leading := extractLeadingDescription doc
  let explicitD :=
    match searchFirst descToks doc.data with
    | some (d :: _) => jsTrim d
    | _ => ""
  let finalDescription := if explicitD == "" then leading else explicitD
  match parseParamAndPropertyLines doc with
  | .error e => .error e
  | .ok rps => .ok (finalDescription, rps)

/-- The non-union, non-enum-with-values tail of `createBaseSchema`. -/
def createBaseRest (rp : RawParam) : Json :=
  match rp.enumValues with
  | some vs =>
    if rp.isEnum then
      Json.obj [("type", Json.str rp.type), ("enum", Json.arr (vs.map Json.str)),
        ("description", Json.str rp.description)]
    else Json.obj [("type", Json.str rp.type), ("description", Json.str rp.description)]
  | none => Json.obj [("type", Json.str rp.type), ("description", Json.str rp.description)]

/-- Source `createBaseSchema`: a non-empty union becomes `oneOf` over
the members (each mapped to its primitive, `any` if unrecognized), an enum
with values becomes type plus `enum`, anything else the plain type; the
declaration's description is embedded each time. -/
def createBaseSchema (rp : RawParam) : Json :=
  match rp.unionSubTypes with
  | some sts =>
    if sts.length > 0 then
      Json.obj [("oneOf", Json.arr (sts.map (fun st =>
          let lc := asciiLower st
          if JSON_SCHEMA_TYPES.contains lc then Json.obj [("type", Json.str lc)]
          else Json.obj [("type", Json.str "any")]))),
        ("description", Json.str rp.description)]
    else createBaseRest rp
  | none => createBaseRest rp

/-- Source `buildSubProperties`: each nested declaration contributes its
prefix-stripped field name (`slice` past the parent name and the dot) with
its base schema, and the field joins `required` exactly when the
declaration is not optional. -/
def stripParent (parentName : String) (n : String) : String :=
  String.mk (n.data.drop (parentName.data.length + 1))

def bspStep (parentName : String) (acc : List (String × Json) × List String) (sp : RawParam) :
    List (String × Json) × List String :=
  let field := stripParent parentName sp.name
  (objUpsert acc.1 field (createBaseSchema sp),
   if sp.isOptional then acc.2 else acc.2 ++ [field])

def buildSubProperties (parentName : String) (subProps : List RawParam) :
    List (String × Json) × List String :=
  subProps.foldl (bspStep parentName) ([], [])

/-- The first loop of `buildParamSchemas`: top-level declarations keyed by
name (later writes overwrite), nested-field declarations collected aside. -/
def tlStep (acc : List (String × RawParam) × List RawParam) (rp : RawParam) :
    List (String × RawParam) × List RawParam :=
  if rp.isProperty then (acc.1, acc.2 ++ [rp])
  else (objUpsert acc.1 rp.name rp, acc.2)

def topLevelAndProps (rps : List RawParam) : List (String × RawParam) × List RawParam :=
  rps.foldl tlStep ([], [])

/-- The per-entry body of `buildParamSchemas`: the base schema, and for an
object-typed base with matching nested declarations ("name starts with
`parent.`"), the folded `properties` and, when non-empty, `required`. -/
def attachSubProps (propertyMap : List RawParam) (rp : RawParam) : Json :=
  let base := createBaseSchema rp
  if (match base.getField "type" with
      | some (.str v) => v == "object"
      | _ => false) then
    let subProps := propertyMap.filter (fun p => strStartsWith p.name (rp.name ++ "."))
    if subProps.length > 0 then
      let pr := buildSubProperties rp.name subProps
      let base1 := base.setField "properties" (Json.obj pr.1)
      if pr.2.length > 0 then base1.setField "required" (Json.arr (pr.2.map Json.str))
      else base1
    else base
  else base

/-- Source `buildParamSchemas`. -/
def buildParamSchemas (rps : List RawParam) : List ParsedParamSchema :=
  let tp := topLevelAndProps rps
  tp.1.map (fun e =>
    ⟨e.2.name, e.2.description, attachSubProps tp.2 e.2, e.2.enumValues, e.2.isOptional⟩)

/-- The nested declarations a top-level entry named `parent` collects: the
property-tagged raw params whose name starts with `parent.`. -/
def subPropsOf (rps : List RawParam) (parent : String) : List RawParam :=
  (rps.filter (fun r => r.isProperty)).filter
    (fun p => strStartsWith p.name (parent ++ "."))

/-! ## Untyped dialect: function-name recovery and the per-block loop -/

def nonBraceChar (c : Char) : Bool := !(c == '\x7d')

def nonParenChar (c : Char) : Bool := !(c == ')')

def capWord : Tok := .capCls wordChar true

/-- The source's twelve declaration-shape regexes, in priority order, token
for token. Each starts at a word boundary (handled by `searchBound`) and
captures the one `\w+` group, the function name. The greedy runs are all
followed by a character outside their class, so the deterministic matcher
agrees with the regex engine on every one of them. -/
def fnPatterns : List (List Tok) :=
  [[.lit "const", .ws1, capWord, .ws0, .lit "=", .ws0, .lit "async", .ws0, .lit "(", .ws0,
    .lit "\x7b", .cls0 nonBraceChar, .lit "\x7d", .ws0, .lit ")", .ws0, .lit "=>", .ws0, .lit "\x7b"],
   [.lit "const", .ws1, capWord, .ws0, .lit "=", .ws0, .lit "async", .ws0, .lit "(",
    .cls0 nonParenChar, .lit ")", .ws0, .lit "=>", .ws0, .lit "\x7b"],
   [.lit "const", .ws1, capWord, .ws0, .lit "=", .ws0, .lit "async", .ws0, .lit "=>", .ws0, .lit "\x7b"],
   [.lit "const", .ws1, capWord, .ws0, .lit "=", .ws0, .lit "(", .ws0, .cls0 nonParenChar,
    .lit ")", .ws0, .lit "=>", .ws0, .lit "\x7b"],
   [.lit "export", .ws1, .lit "const", .ws1, capWord, .ws0, .lit "=", .ws0, .lit "async", .ws0,
    .lit "(", .ws0, .lit "\x7b", .cls0 nonBraceChar, .lit "\x7d", .ws0, .lit ")", .ws0, .lit "=>",
    .ws0, .lit "\x7b"],
   [.lit "export", .ws1, .lit "const", .ws1, capWord, .ws0, .lit "=", .ws0, .lit "async", .ws0,
    .lit "(", .cls0 nonParenChar, .lit ")", .ws0, .lit "=>", .ws0, .lit "\x7b"],
   [.lit "export", .ws1, .lit "const", .ws1, capWord, .ws0, .lit "=", .ws0, .lit "async", .ws0,
    .lit "=>", .ws0, .lit "\x7b"],
   [.lit "export", .ws1, .lit "const", .ws1, capWord, .ws0, .lit "=", .ws0, .lit "(", .ws0,
    .cls0 nonParenChar, .lit ")", .ws0, .lit "=>", .ws0, .lit "\x7b"],
   [.lit "export", .ws1, .lit "async", .ws1, .lit "function", .ws1, capWord, .ws0, .lit "("],
   [.lit "export", .ws1, .lit "function", .ws1, capWord, .ws0, .lit "("],
   [.lit "async", .ws1, .lit "function", .ws1, capWord, .ws0, .lit "("],
   [.lit "function", .ws1, capWord, .ws0, .lit "("]]

/-- Split on `\r?\n` as the source does before scanning lines. -/
def splitLinesCRLF (cs : List Char) : List (List Char) :=
  (splitChar '\n' cs).map (fun l =>
    match l.getLast? with
    | some c => if c == '\r' then l.dropLast else l
    | none => l)

def lineIsComment (l : List Char) : Bool := "//".data.isPrefixOf (l.dropWhile wsChar)

def tryPatterns : List (List Tok) → List Char → Option String
  | [], _ => none
  | p :: ps, l =>
    match searchBound p false l with
    | some (name :: _) => some name
    | _ => tryPatterns ps l

def fnGo : List (List Char) → String
  | [] => "unknown"
  | l :: ls =>
    if lineIsComment l || (l.dropWhile wsChar).isEmpty then fnGo ls
    else
      match tryPatterns fnPatterns l with
      | some name => name
      | none => fnGo ls

/-- Source `findNextFunctionName`: line by line, skipping comment and
blank lines, first matching pattern wins; `"unknown"` when nothing matches
on any line. -/
def findNextFunctionName (remaining : String) : String :=
  fnGo (splitLinesCRLF remaining.data)

/-- One `/** ... */` match of the block regex: the trimmed inner text, the
whole matched text, and the trimmed rest of the source after it. -/
structure SrcBlock where
  docText : String
  fullMatch : String
  remaining : String

/-- The commented-out test of the source: a multiline `^\s*//` match
anywhere inside the matched block text. -/
def isCommentedOut (fullMatch : String) : Bool :=
  ((splitChar '\n' fullMatch.data).flatMap (splitChar '\r')).any
    (fun l => "//".data.isPrefixOf (l.dropWhile wsChar))

/-- The body of the `while` loop of `parseJsAnnotations`, one iteration per
doc-block match: skip a commented-out block, parse the block (a thrown
invalid-type error aborts everything), skip the block when no function name
is recovered, otherwise emit the annotation record. -/
def processBlocks : List SrcBlock → Except String (List ParsedAnnotationT)
  | [] => .ok []
  | b :: bs =>
    if isCommentedOut b.fullMatch then processBlocks bs
    else
      match parseDocBlock b.docText with
      | .error e => .error e
      | .ok pr =>
        let fnName := findNextFunctionName b.remaining
        if fnName == "unknown" then processBlocks bs
        else
          match processBlocks bs with
          | .error e => .error e
          | .ok rest => .ok (⟨pr.1, fnName, buildParamSchemas pr.2⟩ :: rest)

/-- What one block contributes when no block throws: nothing for a
commented-out, failing or function-less block, its annotation otherwise. -/
def annOf (b : SrcBlock) : Option ParsedAnnotationT :=
  if isCommentedOut b.fullMatch then none
  else
    match parseDocBlock b.docText with
    | .error _ => none
    | .ok pr =>
      let fnName := findNextFunctionName b.remaining
      if fnName == "unknown" then none
      else some ⟨pr.1, fnName, buildParamSchemas pr.2⟩

/-- The lazy block regex `/\*\*(.*?)\*/` (with the `s` flag) as a scan:
each match is the text from a `/**` to the nearest following `*/`. -/
def findSub (pat : List Char) : List Char → Option Nat
  | [] => if pat.isEmpty then some 0 else none
  | c :: rest =>
    if pat.isPrefixOf (c :: rest) then some 0
    else
      match findSub pat rest with
      | some n => some (n + 1)
      | none => none

def extractBlocksGo : Nat → List Char → List SrcBlock
  | 0, _ => []
  | fuel + 1, cs =>
    match findSub "/**".data cs with
    | none => []
    | some i =>
      let afterOpen := cs.drop (i + 3)
      match findSub "*/".data afterOpen with
      | none => []
      | some j =>
        let inner := afterOpen.take j
        let rest := afterOpen.drop (j + 2)
        ⟨jsTrim (String.mk inner), String.mk ("/**".data ++ inner ++ "*/".data),
          jsTrim (String.mk rest)⟩ :: extractBlocksGo fuel rest

def extractBlocks (content : String) : List SrcBlock :=
  extractBlocksGo content.data.length content.data

/-- Source `parseJsAnnotations` of the current extractor, over raw source text. -/
def parseJsAnnotations (content : String) : Except String (List ParsedAnnotationT) :=
  processBlocks (extractBlocks content)

/-! ## Untyped dialect: the legacy extractor (`src/parser.ts`) -/

/-- A parsed `@param` line of the legacy dialect. -/
structure OldParam where
  name : String
  description : String
  type : String
  enumVals : Option (List String)

/-- The legacy `@notice (.+)` pattern (note the literal space). -/
def oldNoticeToks : List Tok :=
  [.lit "@notice ", .capCls (fun c => !(c == '\n' || c == '\r')) true]

/-- The legacy `@param\s+([^\r\n]+)` pattern. -/
def oldParamToks : List Tok :=
  [.lit "@param", .ws1, .capCls (fun c => !(c == '\n' || c == '\r')) true]

/-- The legacy enum line `enum\s+(\w+)\s*[([^\]]+)]\s*(.*)` anchored on the
rest of the `@param` line (brackets escaped in the source). -/
def enumLineToks : List Tok :=
  [.lit "enum", .ws1, capWord, .ws0, .lit "[", .capCls (fun c => !(c == ']')) true,
   .lit "]", .ws0, .capRestLine]

/-- The legacy normal line `(\w+)\s+(\w+)\s+(.+)`. The one place the regex
engine backtracks: with nothing after the final whitespace run, `\s+` gives
one character back so `(.+)` can match a single space. -/
def normalLineMatch (rest : String) : Option (String × String × String) :=
  let cs := rest.data
  let w1 := cs.takeWhile wordChar
  if w1.isEmpty then none
  else
    let r1 := cs.drop w1.length
    let s1 := r1.takeWhile wsChar
    if s1.isEmpty then none
    else
      let r2 := r1.drop s1.length
      let w2 := r2.takeWhile wordChar
      if w2.isEmpty then none
      else
        let r3 := r2.drop w2.length
        let s2 := r3.takeWhile wsChar
        if s2.isEmpty then none
        else
          let r4 := r3.drop s2.length
          if r4.isEmpty then
            if s2.length ≥ 2 then some (String.mk w1, String.mk w2, " ")
            else none
          else some (String.mk w1, String.mk w2, String.mk r4)

/-- One `@param` rest-of-line of the legacy extractor: the enum shape (the
values split on commas, trimmed, empties dropped; numeric when every value
parses as a number), else the `type name desc` shape validated against the
vocabulary, else a malformed-declaration error. -/
def parseOldParamLine (rest : String) : Except String OldParam :=
  match anchoredMatch enumLineToks rest with
  | some [pname, blist, desc] =>
    let enumValues :=
      ((splitChar ',' blist.data).map (fun v => jsTrim (String.mk v))).filter (fun s => s ≠ "")
    let isNumber := enumValues.all jsNumberLike
    .ok ⟨pname, jsTrim desc, if isNumber then "number" else "string", some enumValues⟩
  | _ =>
    match normalLineMatch rest with
    | some (ty, pname, desc) =>
      if JSON_SCHEMA_TYPES.contains ty then .ok ⟨pname, jsTrim desc, ty, none⟩
      else
        .error ("Invalid @param type \x27" ++ ty ++ "\x27 for param \x27" ++ pname ++
          "\x27. Allowed: " ++ commaJoin JSON_SCHEMA_TYPES)
    | none =>
      .error ("Invalid @param usage:\n@param " ++ rest ++ "\n" ++
        "Must be \"@param enum <paramName> [val1, val2] desc\" or \"@param <type> <paramName> desc\"")

/-- Source `parseDocBlock` of the legacy extractor. -/
def parseDocBlockOld (block : String) : Except String (String × List OldParam) :=
  let notice :=
    match searchFirst oldNoticeToks block.data with
    | some (n :: _) => n
    | _ => ""
  let rawLines := (scanAll oldParamToks block).filterMap (fun caps => caps.head?)
  match mapExcept parseOldParamLine rawLines with
  | .error e => .error e
  | .ok ps => .ok (notice, ps)

/-- The mapping the legacy `parseJsAnnotations` applies to each parsed
param before assembly: the flat type (plus `enum` when present) becomes the
schema, with no optionality and no top-level enum field. -/
def oldParamToSchema (p : OldParam) : ParsedParamSchema :=
  { name := p.name
    description := p.description
    schema :=
      match p.enumVals with
      | some vs => Json.obj [("type", Json.str p.type), ("enum", Json.arr (vs.map Json.str))]
      | none => Json.obj [("type", Json.str p.type)]
    enumVals := none
    isOptional := false }

/-! ## Helper lemmas: association lists with JS assignment semantics -/

theorem lookup_objUpsert_self {α : Type} (fs : List (String × α)) (k : String) (v : α) :
    lookupField (objUpsert fs k v) k = some v := by
  induction fs with
  | nil => simp [objUpsert, lookupField]
  | cons e t ih =>
    obtain ⟨k', v'⟩ := e
    by_cases hk : (k' == k) = true
    · simp [objUpsert, hk, lookupField]
    · simp only [Bool.not_eq_true] at hk
      simp [objUpsert, hk, lookupField, ih]

theorem lookup_objUpsert_ne {α : Type} (fs : List (String × α)) (k k₂ : String) (v : α)
    (h : (k₂ == k) = false) :
    lookupField (objUpsert fs k v) k₂ = lookupField fs k₂ := by
  induction fs with
  | nil =>
    have hk : (k == k₂) = false := by
      rcases beq_eq_false_iff_ne.mp h with hne
      exact beq_eq_false_iff_ne.mpr (fun he => hne he.symm)
    simp [objUpsert, lookupField, hk]
  | cons e t ih =>
    obtain ⟨k', v'⟩ := e
    by_cases hk : (k' == k) = true
    · have hke : k' = k := beq_iff_eq.mp hk
      have hk2 : (k' == k₂) = false := by
        subst hke
        rcases beq_eq_false_iff_ne.mp h with hne
        exact beq_eq_false_iff_ne.mpr (fun he => hne he.symm)
      simp [objUpsert, hk, lookupField, hk2]
    · simp only [Bool.not_eq_true] at hk
      by_cases hk2 : (k' == k₂) = true
      · simp [objUpsert, hk, lookupField, hk2]
      · simp only [Bool.not_eq_true] at hk2
        simp [objUpsert, hk, lookupField, hk2, ih]

theorem mem_objUpsert {α : Type} (fs : List (String × α)) (k : String) (v : α)
    (e : String × α) (h : e ∈ objUpsert fs k v) : e = (k, v) ∨ e ∈ fs := by
  induction fs with
  | nil => simp [objUpsert] at h; simp [h]
  | cons e' t ih =>
    obtain ⟨k', v'⟩ := e'
    by_cases hk : (k' == k) = true
    · have hke : k' = k := beq_iff_eq.mp hk
      subst hke
      simp only [objUpsert, hk, if_pos] at h
      rcases List.mem_cons.mp h with h1 | h2
      · left; simpa using h1
      · right; exact List.mem_cons_of_mem _ h2
    · simp only [Bool.not_eq_true] at hk
      simp only [objUpsert, hk, Bool.false_eq_true, if_false] at h
      rcases List.mem_cons.mp h with h1 | h2
      · right; simp [h1]
      · rcases ih h2 with h3 | h4
        · left; exact h3
        · right; exact List.mem_cons_of_mem _ h4

theorem keys_mem_objUpsert {α : Type} (fs : List (String × α)) (k : String) (v : α)
    (n : String) :
    n ∈ (objUpsert fs k v).map Prod.fst ↔ n ∈ fs.map Prod.fst ∨ n = k := by
  induction fs with
  | nil => simp [objUpsert]
  | cons e t ih =>
    obtain ⟨k', v'⟩ := e
    by_cases hk : (k' == k) = true
    · have hke : k' = k := beq_iff_eq.mp hk
      subst hke
      simp only [objUpsert, hk, if_pos]
      constructor
      · intro h
        rcases List.mem_map.mp h with ⟨p, hp, he⟩
        rcases List.mem_cons.mp hp with h1 | h2
        · right; rw [h1] at he; exact he.symm
        · left; exact List.mem_map.mpr ⟨p, List.mem_cons_of_mem _ h2, he⟩
      · intro h
        rcases h with h1 | h2
        · rcases List.mem_map.mp h1 with ⟨p, hp, he⟩
          rcases List.mem_cons.mp hp with h3 | h4
          · exact List.mem_map.mpr ⟨(k', v), by simp, by rw [h3] at he; exact he⟩
          · exact List.mem_map.mpr ⟨p, List.mem_cons_of_mem _ h4, he⟩
        · exact List.mem_map.mpr ⟨(k', v), by simp, h2.symm⟩
    · simp only [Bool.not_eq_true] at hk
      simp only [objUpsert, hk, Bool.false_eq_true, if_false]
      simp only [List.map_cons, List.mem_cons, ih]
      tauto

theorem keys_nodup_objUpsert {α : Type} (fs : List (String × α)) (k : String) (v : α)
    (h : (fs.map Prod.fst).Nodup) : ((objUpsert fs k v).map Prod.fst).Nodup := by
  induction fs with
  | nil => simp [objUpsert]
  | cons e t ih =>
    obtain ⟨k', v'⟩ := e
    simp only [List.map_cons, List.nodup_cons] at h
    by_cases hk : (k' == k) = true
    · simp only [objUpsert, hk, if_pos, List.map_cons, List.nodup_cons]
      exact ⟨h.1, h.2⟩
    · simp only [Bool.not_eq_true] at hk
      simp only [objUpsert, hk, Bool.false_eq_true, if_false, List.map_cons, List.nodup_cons]
      constructor
      · intro hc
        rcases (keys_mem_objUpsert t k v k').mp hc with h1 | h2
        · exact h.1 h1
        · rw [h2] at hk
          simp at hk
      · exact ih h.2

theorem lookup_of_mem_nodup {α : Type} (fs : List (String × α)) (k : String) (v : α)
    (hn : (fs.map Prod.fst).Nodup) (hm : (k, v) ∈ fs) : lookupField fs k = some v := by
  induction fs with
  | nil => simp at hm
  | cons e t ih =>
    obtain ⟨k', v'⟩ := e
    simp only [List.map_cons, List.nodup_cons] at hn
    rcases List.mem_cons.mp hm with h1 | h2
    · obtain ⟨he1, he2⟩ := Prod.mk.injEq .. ▸ h1
      injection h1 with hk hv
      simp [lookupField, hk.symm, hv]
    · have hne : (k' == k) = false := by
        refine beq_eq_false_iff_ne.mpr (fun he => ?_)
        exact hn.1 (he ▸ List.mem_map.mpr ⟨(k, v), h2, rfl⟩)
      simp [lookupField, hne, ih hn.2 h2]

theorem getField_setField_self (j : Json) (k : String) (v : Json) :
    (Json.setField j k v).getField k = some v := by
  cases j with
  | obj fs => simp [Json.setField, Json.getField, lookup_objUpsert_self]
  | str s => simp [Json.setField, Json.getField, lookupField]
  | arr xs => simp [Json.setField, Json.getField, lookupField]

theorem getField_setField_ne (j : Json) (k k₂ : String) (v : Json)
    (h : (k₂ == k) = false) :
    (Json.setField j k v).getField k₂ = j.getField k₂ := by
  have hk : (k == k₂) = false := by
    rcases beq_eq_false_iff_ne.mp h with hne
    exact beq_eq_false_iff_ne.mpr (fun he => hne he.symm)
  cases j with
  | obj fs => simp [Json.setField, Json.getField, lookup_objUpsert_ne _ _ _ _ h]
  | str s => simp [Json.setField, Json.getField, lookupField, hk]
  | arr xs => simp [Json.setField, Json.getField, lookupField, hk]

theorem finalParamSchema_description (p : ParsedParamSchema) :
    (finalParamSchema p).getField "description" = some (Json.str p.description) := by
  unfold finalParamSchema
  cases p.enumVals with
  | none => exact getField_setField_self _ _ _
  | some vs =>
    by_cases hv : vs.length > 0
    · simp only [hv, if_pos]
      rw [getField_setField_ne _ _ _ _ (by decide)]
      exact getField_setField_self _ _ _
    · simp only [hv, if_neg]
      exact getField_setField_self _ _ _

/-! ## Helper lemmas: the assembler's fold -/

theorem assemble_snd (ps : List ParsedParamSchema) (acc : List (String × Json) × List String) :
    (ps.foldl assembleStep acc).2 =
      acc.2 ++ (ps.filter (fun p => !p.isOptional)).map (fun p => p.name) := by
  induction ps generalizing acc with
  | nil => simp
  | cons p t ih =>
    simp only [List.foldl_cons, ih, List.filter_cons]
    by_cases hp : p.isOptional
    · simp [assembleStep, hp]
    · simp only [Bool.not_eq_true] at hp
      simp [assembleStep, hp]

theorem assemble_fst_mem (ps : List ParsedParamSchema) (acc : List (String × Json) × List String)
    (e : String × Json) (h : e ∈ (ps.foldl assembleStep acc).1) :
    e ∈ acc.1 ∨ ∃ p ∈ ps, e = (p.name, finalParamSchema p) := by
  induction ps generalizing acc with
  | nil => simp at h; exact Or.inl h
  | cons p t ih =>
    simp only [List.foldl_cons] at h
    rcases ih (assembleStep acc p) h with h1 | h2
    · rcases mem_objUpsert _ _ _ _ h1 with h3 | h4
      · right; exact ⟨p, List.mem_cons_self .., h3⟩
      · left; exact h4
    · obtain ⟨q, hq, he⟩ := h2
      right; exact ⟨q, List.mem_cons_of_mem _ hq, he⟩

theorem assemble_fst_keys (ps : List ParsedParamSchema) (acc : List (String × Json) × List String)
    (n : String) :
    n ∈ ((ps.foldl assembleStep acc).1.map Prod.fst) ↔
      n ∈ acc.1.map Prod.fst ∨ n ∈ ps.map (fun p => p.name) := by
  induction ps generalizing acc with
  | nil => simp
  | cons p t ih =>
    simp only [List.foldl_cons, ih, List.map_cons, List.mem_cons]
    rw [show (assembleStep acc p).1 = objUpsert acc.1 p.name (finalParamSchema p) from rfl]
    rw [keys_mem_objUpsert]
    tauto

theorem docRequired_generateSchema (a : ParsedAnnotationT) :
    docRequired (generateSchema a) = (a.params.foldl assembleStep ([], [])).2.map Json.str := rfl

theorem docProps_generateSchema (a : ParsedAnnotationT) :
    docProps (generateSchema a) = (a.params.foldl assembleStep ([], [])).1 := rfl

/-! ## Helper lemmas: the untyped extractor's folds -/

theorem tl_snd (rps : List RawParam) (acc : List (String × RawParam) × List RawParam) :
    (rps.foldl tlStep acc).2 = acc.2 ++ rps.filter (fun r => r.isProperty) := by
  induction rps generalizing acc with
  | nil => simp
  | cons rp t ih =>
    simp only [List.foldl_cons, ih, List.filter_cons]
    by_cases hp : rp.isProperty
    · simp [tlStep, hp]
    · simp only [Bool.not_eq_true] at hp
      simp [tlStep, hp]

theorem tl_fst_mem (rps : List RawParam) (acc : List (String × RawParam) × List RawParam)
    (e : String × RawParam) (h : e ∈ (rps.foldl tlStep acc).1) :
    e ∈ acc.1 ∨ ∃ rp ∈ rps, rp.isProperty = false ∧ e = (rp.name, rp) := by
  induction rps generalizing acc with
  | nil => simp at h; exact Or.inl h
  | cons rp t ih =>
    simp only [List.foldl_cons] at h
    rcases ih (tlStep acc rp) h with h1 | h2
    · by_cases hp : rp.isProperty
      · simp only [tlStep, hp, if_pos] at h1
        exact Or.inl h1
      · simp only [Bool.not_eq_true] at hp
        simp only [tlStep, hp, Bool.false_eq_true, if_false] at h1
        rcases mem_objUpsert _ _ _ _ h1 with h3 | h4
        · right; exact ⟨rp, List.mem_cons_self .., hp, h3⟩
        · left; exact h4
    · obtain ⟨q, hq, hqp, he⟩ := h2
      right; exact ⟨q, List.mem_cons_of_mem _ hq, hqp, he⟩

theorem tl_fst_nodup (rps : List RawParam) (acc : List (String × RawParam) × List RawParam)
    (h : (acc.1.map Prod.fst).Nodup) : ((rps.foldl tlStep acc).1.map Prod.fst).Nodup := by
  induction rps generalizing acc with
  | nil => simpa using h
  | cons rp t ih =>
    simp only [List.foldl_cons]
    apply ih
    by_cases hp : rp.isProperty
    · simpa [tlStep, hp] using h
    · simp only [Bool.not_eq_true] at hp
      simp only [tlStep, hp, Bool.false_eq_true, if_false]
      exact keys_nodup_objUpsert _ _ _ h

theorem tl_fst_lookup (rps : List RawParam) (acc : List (String × RawParam) × List RawParam)
    (n : String) :
    lookupField ((rps.foldl tlStep acc).1) n =
      (match (rps.filter (fun r => !r.isProperty && r.name == n)).getLast? with
       | some rp => some rp
       | none => lookupField acc.1 n) := by
  induction rps generalizing acc with
  | nil => simp
  | cons rp t ih =>
    simp only [List.foldl_cons, List.filter_cons]
    by_cases hp : rp.isProperty
    · simp only [hp, Bool.not_true, Bool.false_and, Bool.false_eq_true, if_false]
      rw [ih]
      simp [tlStep, hp]
    · simp only [Bool.not_eq_true] at hp
      by_cases hn : (rp.name == n) = true
      · simp only [hp, Bool.not_false, Bool.true_and, hn, if_pos]
        rw [ih]
        have hne : n = rp.name := (beq_iff_eq.mp hn).symm
        rcases hl : (t.filter (fun r => !r.isProperty && r.name == n)).getLast? with _ | rp2
        · simp only [hl, List.getLast?_cons, Option.getD_none]
          simp only [tlStep, hp, Bool.false_eq_true, if_false]
          subst hne
          simp [lookup_objUpsert_self]
        · simp [hl, List.getLast?_cons]
      · simp only [hp, Bool.not_false, Bool.true_and, hn, Bool.false_eq_true, if_false]
        rw [ih]
        rcases hl : (t.filter (fun r => !r.isProperty && r.name == n)).getLast? with _ | rp2
        · simp only [hl]
          simp only [tlStep, hp, Bool.false_eq_true, if_false]
          have hnb : (n == rp.name) = false := by
            refine beq_eq_false_iff_ne.mpr (fun he => ?_)
            rw [he] at hn
            simp at hn
          rw [lookup_objUpsert_ne _ _ _ _ hnb]
        · simp [hl]

/-! ## Helper lemmas: nested-property folds -/

theorem bsp_snd (parent : String) (sps : List RawParam)
    (acc : List (String × Json) × List String) :
    (sps.foldl (bspStep parent) acc).2 =
      acc.2 ++ (sps.filter (fun sp => !sp.isOptional)).map
        (fun sp => stripParent parent sp.name) := by
  induction sps generalizing acc with
  | nil => simp
  | cons sp t ih =>
    simp only [List.foldl_cons, ih, List.filter_cons]
    by_cases hp : sp.isOptional
    · simp [bspStep, hp]
    · simp only [Bool.not_eq_true] at hp
      simp [bspStep, hp]

theorem bsp_fst_mem (parent : String) (sps : List RawParam)
    (acc : List (String × Json) × List String)
    (e : String × Json) (h : e ∈ (sps.foldl (bspStep parent) acc).1) :
    e ∈ acc.1 ∨ ∃ sp ∈ sps, e = (stripParent parent sp.name, createBaseSchema sp) := by
  induction sps generalizing acc with
  | nil => simp at h; exact Or.inl h
  | cons sp t ih =>
    simp only [List.foldl_cons] at h
    rcases ih (bspStep parent acc sp) h with h1 | h2
    · rcases mem_objUpsert _ _ _ _ h1 with h3 | h4
      · right; exact ⟨sp, List.mem_cons_self .., h3⟩
      · left; exact h4
    · obtain ⟨q, hq, he⟩ := h2
      right; exact ⟨q, List.mem_cons_of_mem _ hq, he⟩

theorem bsp_fst_keys (parent : String) (sps : List RawParam)
    (acc : List (String × Json) × List String) (n : String) :
    n ∈ ((sps.foldl (bspStep parent) acc).1.map Prod.fst) ↔
      n ∈ acc.1.map Prod.fst ∨ n ∈ sps.map (fun sp => stripParent parent sp.name) := by
  induction sps generalizing acc with
  | nil => simp
  | cons sp t ih =>
    simp only [List.foldl_cons, ih, List.map_cons, List.mem_cons]
    rw [show (bspStep parent acc sp).1
        = objUpsert acc.1 (stripParent parent sp.name) (createBaseSchema sp) from rfl]
    rw [keys_mem_objUpsert]
    tauto

/-! ## Helper lemmas: exception propagation -/

theorem mapExcept_error {α β : Type} (f : α → Except String β) (l : List α)
    (h : ∃ x ∈ l, ∃ e, f x = .error e) : ∃ e, mapExcept f l = .error e := by
  induction l with
  | nil => simp at h
  | cons a t ih =>
    obtain ⟨x, hx, e, he⟩ := h
    rcases List.mem_cons.mp hx with h1 | h2
    · subst h1
      exact ⟨e, by simp [mapExcept, he]⟩
    · rcases ha : f a with e' | b
      · exact ⟨e', by simp [mapExcept, ha]⟩
      · obtain ⟨e2, he2⟩ := ih ⟨x, h2, e, he⟩
        exact ⟨e2, by simp [mapExcept, ha, he2]⟩

/-! ## Helper lemmas: the typed resolver -/

theorem undefFlag_iff (t : TsType) : undefFlag t = true ↔ t = .tUndefined := by
  cases t <;> simp [undefFlag]

theorem not_not_undefFlag {x : TsType} (h : ¬(!undefFlag x) = true) : x = .tUndefined := by
  cases hx : undefFlag x
  · rw [hx] at h; simp at h
  · exact (undefFlag_iff x).mp hx

/-- The bare-any test holds only of the fallback fragment itself. -/
theorem isBareAny_eq (j : Json) (h : isBareAny j = true) :
    j = Json.obj [("type", Json.str "any")] := by
  cases j with
  | str s => simp [isBareAny] at h
  | arr xs => simp [isBareAny] at h
  | obj fs =>
    cases fs with
    | nil => simp [isBareAny, lookupField] at h
    | cons e t =>
      cases t with
      | cons e2 t2 => simp [isBareAny] at h
      | nil =>
        obtain ⟨k, v⟩ := e
        simp only [isBareAny, Bool.and_eq_true, beq_iff_eq, List.length_cons,
          List.length_nil] at h
        obtain ⟨h1, -⟩ := h
        by_cases hk : (k == "type") = true
        · have hke : k = "type" := beq_iff_eq.mp hk
          subst hke
          cases v with
          | str s =>
            simp only [lookupField, beq_self_eq_true, if_pos, beq_iff_eq] at h1
            subst h1
            rfl
          | arr xs => simp [lookupField] at h1
          | obj fs2 => simp [lookupField] at h1
        · simp only [Bool.not_eq_true] at hk
          simp [lookupField, hk] at h1

/-- On a non-union type the undefined-stripping step is the identity. -/
theorem buildJsonSchema_nonUnion (t : TsType) (h : isUnionT t = false) :
    buildJsonSchema t = buildCore t := by
  cases t with
  | union ts sp => simp [isUnionT] at h
  | tString => simp [buildJsonSchema, removeUndefinedFromUnion]
  | tNumber => simp [buildJsonSchema, removeUndefinedFromUnion]
  | tBoolean => simp [buildJsonSchema, removeUndefinedFromUnion]
  | tUndefined => simp [buildJsonSchema, removeUndefinedFromUnion]
  | anyT => simp [buildJsonSchema, removeUndefinedFromUnion]
  | other => simp [buildJsonSchema, removeUndefinedFromUnion]
  | stringLit v => simp [buildJsonSchema, removeUndefinedFromUnion]
  | arrayOf e => simp [buildJsonSchema, removeUndefinedFromUnion]
  | arrayNoArg => simp [buildJsonSchema, removeUndefinedFromUnion]
  | objectT ps => simp [buildJsonSchema, removeUndefinedFromUnion]
  | intersection ts cp => simp [buildJsonSchema, removeUndefinedFromUnion]

theorem buildJsonSchema_undef :
    buildJsonSchema .tUndefined = Json.obj [("type", Json.str "any")] := by
  rw [buildJsonSchema_nonUnion TsType.tUndefined rfl]
  simp [buildCore, getPropertiesOf]

/-- Whenever `type.getProperties()` answers at least one member, the
resolver takes the object branch, whatever kind of type it was handed. -/
theorem buildCore_props (t : TsType) (h : 0 < (getPropertiesOf t).length) :
    buildCore t =
      Json.obj [("type", Json.str "object"),
        ("properties", Json.obj
          (((getPropertiesOf t).map (fun q => (q.1, buildJsonSchema q.2.2))).foldl
            (fun acc pr => objUpsert acc pr.1 pr.2) [])),
        ("required", Json.arr
          (((getPropertiesOf t).filter (fun q => !isOptionalProp q.2.1 q.2.2)).map
            (fun q => Json.str q.1)))] := by
  have hmap : ∀ ps : List (String × Bool × TsType),
      ps.attach.map (fun p => (p.1.1, buildJsonSchema p.1.2.2))
        = ps.map (fun q => (q.1, buildJsonSchema q.2.2)) := fun ps =>
    List.attach_map_coe ps (fun q => (q.1, buildJsonSchema q.2.2))
  cases t with
  | objectT props =>
    simp only [getPropertiesOf] at h ⊢
    simp only [buildCore, getPropertiesOf, if_pos h, hmap]
  | union ts sp =>
    simp only [getPropertiesOf] at h ⊢
    simp only [buildCore, getPropertiesOf, if_pos h, hmap]
  | intersection ts cp =>
    simp only [getPropertiesOf] at h ⊢
    simp only [buildCore, getPropertiesOf, if_pos h, hmap]
  | tString => simp [getPropertiesOf] at h
  | tNumber => simp [getPropertiesOf] at h
  | tBoolean => simp [getPropertiesOf] at h
  | tUndefined => simp [getPropertiesOf] at h
  | anyT => simp [getPropertiesOf] at h
  | other => simp [getPropertiesOf] at h
  | stringLit v => simp [getPropertiesOf] at h
  | arrayOf e => simp [getPropertiesOf] at h
  | arrayNoArg => simp [getPropertiesOf] at h

/-! ## The claims -/

/-- C1 counterexample: the claimed union rule does not govern every union.
The checker reports the shared member `kind` as a common apparent property
of the union of `\x7b kind: string; x: number \x7d` and
`\x7b kind: string \x7d`, so `type.getProperties().length > 0` holds and
the resolver takes the object branch before the union test is reached: the
result is an object fragment over the shared member, not the `oneOf` of
the two resolved members the claim asserts. -/
theorem C1_cex_shared_member_object_branch :
    (∀ x ∈ [TsType.objectT [("kind", false, .tString), ("x", false, .tNumber)],
        TsType.objectT [("kind", false, .tString)]], isUnionT x = false) ∧
    buildJsonSchema sharedKindUnion =
      Json.obj [("type", Json.str "object"),
        ("properties", Json.obj [("kind", Json.obj [("type", Json.str "string")])]),
        ("required", Json.arr [Json.str "kind"])] ∧
    (buildJsonSchema sharedKindUnion).getField "oneOf" = none := by
  have hrm : (removeUndefinedFromUnion sharedKindUnion).getD sharedKindUnion
      = sharedKindUnion := rfl
  have hb : buildJsonSchema sharedKindUnion =
      Json.obj [("type", Json.str "object"),
        ("properties", Json.obj [("kind", Json.obj [("type", Json.str "string")])]),
        ("required", Json.arr [Json.str "kind"])] := by
    rw [show buildJsonSchema sharedKindUnion = buildCore sharedKindUnion by
      simp only [buildJsonSchema, hrm]]
    rw [buildCore_props sharedKindUnion (by simp [sharedKindUnion, getPropertiesOf])]
    have hs : buildJsonSchema TsType.tString = Json.obj [("type", Json.str "string")] := by
      rw [buildJsonSchema_nonUnion TsType.tString rfl]
      simp [buildCore]
    simp [sharedKindUnion, getPropertiesOf, hs, isOptionalProp, objUpsert]
  refine ⟨by decide, hb, ?_⟩
  rw [hb]
  rfl

/-- C1 (amended): the union branch of the typed-dialect resolver governs
exactly the unions the object test lets through — those for which the
checker's `type.getProperties()` answer is empty, e.g. any union with an
`undefined` member, since `undefined` has no apparent members to share.
For such a union with non-union members (the checker hands unions over
flattened): every member is resolved; members resolving to the bare
unknown fragment are dropped; nothing left gives the unknown fragment;
exactly one survivor is returned without a `oneOf` wrapper; all-string-enum
survivors merge into one string enum whose values follow member order with
duplicates retained; and otherwise the survivors are wrapped as `oneOf` in
member order. -/
theorem C1_union_resolution_without_shared_props (ms : List TsType)
    (h : ∀ x ∈ ms, isUnionT x = false) :
    buildJsonSchema (.union ms []) =
      (match (ms.map buildJsonSchema).filter (fun s => !isBareAny s) with
       | [] => Json.obj [("type", Json.str "any")]
       | [s] => s
       | ss =>
         if ss.all isStringEnumSchema then
           Json.obj [("type", Json.str "string"), ("enum", Json.arr (ss.flatMap enumArr))]
         else Json.obj [("oneOf", Json.arr ss)]) := by
  rcases hf : ms.filter (fun x => !undefFlag x) with _ | ⟨x, xs⟩
  · -- every member is undefined: the stripped type is the checker's any
    have hall : ∀ x ∈ ms, x = .tUndefined := fun x hx =>
      not_not_undefFlag (List.filter_eq_nil_iff.mp hf x hx)
    have hmap : (ms.map buildJsonSchema).filter (fun s => !isBareAny s) = [] := by
      apply List.filter_eq_nil_iff.mpr
      intro s hs
      rcases List.mem_map.mp hs with ⟨x, hx, he⟩
      rw [hall x hx] at he
      rw [← he, buildJsonSchema_undef]
      simp [isBareAny, lookupField]
    have hrm : (removeUndefinedFromUnion (.union ms [])).getD (.union ms []) = .anyT := by
      simp [removeUndefinedFromUnion, hf]
    rw [hmap]
    simp only [buildJsonSchema, hrm]
    simp [buildCore, getPropertiesOf]
  · rcases xs with _ | ⟨y, ys⟩
    · -- exactly one non-undefined member survives: no wrapper
      have hx : x ∈ ms := by
        obtain ⟨l1, l2, hl, -⟩ := List.filter_eq_cons_iff.mp hf
        subst hl; simp
      have hxu : isUnionT x = false := h x hx
      have hrm : (removeUndefinedFromUnion (.union ms [])).getD (.union ms []) = x := by
        simp [removeUndefinedFromUnion, hf]
      have lhs : buildJsonSchema (.union ms []) = buildCore x := by
        simp only [buildJsonSchema, hrm]
      obtain ⟨l1, l2, hl, h1, -, h2⟩ := List.filter_eq_cons_iff.mp hf
      have hund : ∀ z ∈ l1, z = .tUndefined := fun z hz => not_not_undefFlag (h1 z hz)
      have hund2 : ∀ z ∈ l2, z = .tUndefined := fun z hz =>
        not_not_undefFlag (List.filter_eq_nil_iff.mp h2 z hz)
      have hmap : (ms.map buildJsonSchema).filter (fun s => !isBareAny s)
          = ([buildJsonSchema x].filter (fun s => !isBareAny s)) := by
        subst hl
        simp only [List.map_append, List.map_cons, List.filter_append, List.filter_cons]
        have e1 : (l1.map buildJsonSchema).filter (fun s => !isBareAny s) = [] := by
          apply List.filter_eq_nil_iff.mpr
          intro s hs
          rcases List.mem_map.mp hs with ⟨z, hz, he⟩
          rw [hund z hz] at he
          rw [← he, buildJsonSchema_undef]
          simp [isBareAny, lookupField]
        have e2 : (l2.map buildJsonSchema).filter (fun s => !isBareAny s) = [] := by
          apply List.filter_eq_nil_iff.mpr
          intro s hs
          rcases List.mem_map.mp hs with ⟨z, hz, he⟩
          rw [hund2 z hz] at he
          rw [← he, buildJsonSchema_undef]
          simp [isBareAny, lookupField]
        rw [e1, e2]
        simp [List.filter_cons]
      rw [hmap, lhs, ← buildJsonSchema_nonUnion x hxu]
      by_cases hb : isBareAny (buildJsonSchema x) = true
      · rw [isBareAny_eq _ hb]
        simp [isBareAny, lookupField]
      · simp only [Bool.not_eq_true] at hb
        simp [List.filter_cons, hb]
    · -- two or more survive: the original union, whose property set is
      -- empty, slips past the object test and is classified member by member
      have hrm : (removeUndefinedFromUnion (.union ms [])).getD (.union ms [])
          = .union ms [] := by
        simp [removeUndefinedFromUnion, hf]
      simp only [buildJsonSchema, hrm]
      simp only [buildCore, getPropertiesOf, List.length_nil, Nat.lt_irrefl, if_false]
      rw [show (ms.attach.map (fun x => buildJsonSchema x.1)) = ms.map buildJsonSchema from
        List.attach_map_coe ms buildJsonSchema]

/-- C1 witness: `"a" | "b" | undefined` — a union the checker has no
common apparent properties for, since `undefined` contributes none — keeps
all three members after stripping fails to reach a single survivor, drops
the bare-any fragment the `undefined` member resolves to, and merges the
two string-literal members into one enum. -/
theorem C1_union_resolution_without_shared_props_witness :
    (∀ x ∈ [TsType.stringLit "a", TsType.stringLit "b", TsType.tUndefined],
      isUnionT x = false) ∧
    buildJsonSchema (.union [.stringLit "a", .stringLit "b", .tUndefined] []) =
      Json.obj [("type", Json.str "string"),
        ("enum", Json.arr [Json.str "a", Json.str "b"])] := by
  constructor
  · decide
  · rw [C1_union_resolution_without_shared_props
      [TsType.stringLit "a", TsType.stringLit "b", TsType.tUndefined] (by decide)]
    simp only [List.map_cons, List.map_nil]
    rw [buildJsonSchema_nonUnion (TsType.stringLit "a") rfl,
      buildJsonSchema_nonUnion (TsType.stringLit "b") rfl, buildJsonSchema_undef]
    simp [buildCore, isBareAny, lookupField, isStringEnumSchema, List.filter,
      Json.getField, enumArr]

/-- C2: for every annotation the assembler receives, the document's
top-level `required` list is exactly the names of the parameters whose
`isOptional` flag is not true (absence modelled as `false`), in parameter
order; and a name is in `required` iff some parameter of that name has
`isOptional` false. -/
theorem C2_required_iff_not_optional (a : ParsedAnnotationT) :
    docRequired (generateSchema a) =
      (a.params.filter (fun p => !p.isOptional)).map (fun p => Json.str p.name) ∧
    ∀ n : String, Json.str n ∈ docRequired (generateSchema a) ↔
      ∃ p ∈ a.params, p.name = n ∧ p.isOptional = false := by
  have h1 : docRequired (generateSchema a) =
      (a.params.filter (fun p => !p.isOptional)).map (fun p => Json.str p.name) := by
    rw [docRequired_generateSchema, assemble_snd]
    simp [List.map_map, Function.comp]
  refine ⟨h1, fun n => ?_⟩
  rw [h1]
  constructor
  · intro hm
    rcases List.mem_map.mp hm with ⟨p, hp, he⟩
    rcases List.mem_filter.mp hp with ⟨hp1, hp2⟩
    refine ⟨p, hp1, ?_, ?_⟩
    · have := Json.str.injEq p.name n ▸ he
      simpa using he
    · simpa using hp2
  · rintro ⟨p, hp, hn, ho⟩
    apply List.mem_map.mpr
    exact ⟨p, List.mem_filter.mpr ⟨hp, by simp [ho]⟩, by rw [hn]⟩

/-- C10: every assembled document has the fixed shape
`(type: function, function: (name, description, parameters: (type: object,
properties, required)))`; every `required` entry is a string that is a key
of `properties`; `required` preserves the parameters' insertion order (it
is exactly the non-optional names in order); and every property is the
fragment of one of the parameters with its description merged over the
schema fragment. -/
theorem C10_document_shape (a : ParsedAnnotationT) :
    generateSchema a = Json.obj [("type", Json.str "function"),
      ("function", Json.obj [
        ("name", Json.str a.functionName),
        ("description", Json.str a.notice),
        ("parameters", Json.obj [
          ("type", Json.str "object"),
          ("properties", Json.obj (docProps (generateSchema a))),
          ("required", Json.arr (docRequired (generateSchema a)))])])] ∧
    (∀ x ∈ docRequired (generateSchema a),
      ∃ n, x = Json.str n ∧ n ∈ (docProps (generateSchema a)).map Prod.fst) ∧
    docRequired (generateSchema a) =
      (a.params.filter (fun p => !p.isOptional)).map (fun p => Json.str p.name) ∧
    (∀ e ∈ docProps (generateSchema a),
      ∃ p ∈ a.params, e.1 = p.name ∧ e.2 = finalParamSchema p ∧
        e.2.getField "description" = some (Json.str p.description)) := by
  have hreq : docRequired (generateSchema a) =
      (a.params.filter (fun p => !p.isOptional)).map (fun p => Json.str p.name) := by
    rw [docRequired_generateSchema, assemble_snd]
    simp [List.map_map, Function.comp]
  refine ⟨rfl, ?_, hreq, ?_⟩
  · intro x hx
    rw [hreq] at hx
    rcases List.mem_map.mp hx with ⟨p, hp, he⟩
    rcases List.mem_filter.mp hp with ⟨hp1, -⟩
    refine ⟨p.name, he.symm, ?_⟩
    rw [docProps_generateSchema]
    rw [assemble_fst_keys]
    right
    exact List.mem_map.mpr ⟨p, hp1, rfl⟩
  · intro e he
    rw [docProps_generateSchema] at he
    rcases assemble_fst_mem _ _ _ he with h1 | h2
    · simp at h1
    · obtain ⟨p, hp, hep⟩ := h2
      refine ⟨p, hp, ?_, ?_, ?_⟩
      · rw [hep]
      · rw [hep]
      · rw [hep]
        exact finalParamSchema_description p

/-- C8: in untyped-dialect folding, top-level declarations sharing one name
collapse to a single entry (the result's names are pairwise distinct), and
that entry carries the type/schema, description, optionality and enum
values of the LAST such declaration: each produced entry corresponds to the
last top-level raw declaration bearing its name. -/
theorem C8_last_write_wins (rps : List RawParam) :
    (((buildParamSchemas rps).map (fun e => e.name)).Nodup) ∧
    ∀ e ∈ buildParamSchemas rps,
      ∃ rp, (rps.filter (fun r => !r.isProperty && r.name == e.name)).getLast? = some rp ∧
        e.name = rp.name ∧ e.description = rp.description ∧
        e.isOptional = rp.isOptional ∧ e.enumVals = rp.enumValues ∧
        e.schema = attachSubProps (topLevelAndProps rps).2 rp := by
  have hco : ∀ ent ∈ (topLevelAndProps rps).1, ent.2.name = ent.1 := by
    intro ent hent
    rcases tl_fst_mem rps ([], []) ent hent with h1 | h2
    · simp at h1
    · obtain ⟨rp, -, -, he⟩ := h2
      rw [he]
  have hnd : (((topLevelAndProps rps).1).map Prod.fst).Nodup :=
    tl_fst_nodup rps ([], []) (by simp)
  constructor
  · have hmm : ((buildParamSchemas rps).map (fun e => e.name))
        = (topLevelAndProps rps).1.map Prod.fst := by
      unfold buildParamSchemas
      rw [List.map_map]
      apply List.map_congr_left
      intro ent hent
      simp only [Function.comp]
      exact hco ent hent
    rw [hmm]
    exact hnd
  · intro e he
    rcases List.mem_map.mp he with ⟨ent, hent, hme⟩
    subst hme
    have hname : ent.2.name = ent.1 := hco ent hent
    have hmem : (ent.1, ent.2) ∈ (topLevelAndProps rps).1 := by
      simpa using hent
    have hlook : lookupField ((topLevelAndProps rps).1) ent.1 = some ent.2 :=
      lookup_of_mem_nodup _ _ _ hnd hmem
    have hfold := tl_fst_lookup rps ([], []) ent.1
    rw [show (rps.foldl tlStep ([], [])).1 = (topLevelAndProps rps).1 from rfl] at hfold
    rw [hlook] at hfold
    refine ⟨ent.2, ?_, rfl, rfl, rfl, rfl, rfl⟩
    rcases hl : (rps.filter (fun r => !r.isProperty && r.name == ent.1)).getLast? with _ | rp2
    · rw [hl] at hfold
      simp [lookupField] at hfold
    · rw [hl] at hfold
      have h2 : rp2 = ent.2 := by
        injection hfold with hh
        exact hh.symm
      subst h2
      show (rps.filter (fun r => !r.isProperty && r.name == ent.2.name)).getLast? = some ent.2
      rw [hname]
      exact hl

theorem createBaseSchema_required_none (rp : RawParam) :
    (createBaseSchema rp).getField "required" = none := by
  unfold createBaseSchema createBaseRest
  have h1 : ("oneOf" == "required") = false := rfl
  have h2 : ("description" == "required") = false := rfl
  have h3 : ("type" == "required") = false := rfl
  have h4 : ("enum" == "required") = false := rfl
  cases rp.unionSubTypes with
  | some sts =>
    by_cases hl : sts.length > 0
    · simp [hl, Json.getField, lookupField, h1, h2]
    · simp only [hl, if_neg, if_false]
      cases rp.enumValues with
      | some vs =>
        by_cases he : rp.isEnum <;> simp [he, Json.getField, lookupField, h2, h3, h4]
      | none => simp [Json.getField, lookupField, h2, h3]
  | none =>
    cases rp.enumValues with
    | some vs =>
      by_cases he : rp.isEnum <;> simp [he, Json.getField, lookupField, h2, h3, h4]
    | none => simp [Json.getField, lookupField, h2, h3]

/-- C6 counterexample: a top-level `@param` declaration whose name is
itself dotted (`a.b`) is not a nested-field declaration, and the extractor
keeps it as a top-level entry, so the resulting record DOES carry a dotted
top-level name — the claim's final clause fails on this input. -/
theorem C6_cex_dotted_param_top_level :
    (buildParamSchemas [⟨false, false, "string", "a.b", "oops", false, none, none⟩]).map
      (fun e => e.name) = ["a.b"] ∧ containsChar "a.b" '.' = true := by
  exact ⟨rfl, rfl⟩


/-- C6 (amended): in untyped-dialect folding, every `@property` declaration
whose dotted name starts with `<parent>.` for a top-level object-typed
entry is attached to that entry's schema under the prefix-stripped field
name; a nested field joins the parent's required set iff its declaration is
not optional (the `required` key is present exactly when that set is
non-empty); and no nested-field declaration ever contributes a top-level
entry — every top-level entry name comes from a top-level `@param`, which
is the most a dotted-name ban can claim, since a dotted top-level `@param`
is kept as-is (see the counterexample). -/
theorem C6_nested_property_folding (rps : List RawParam) :
    (∀ e ∈ buildParamSchemas rps, ∃ rp ∈ rps, rp.isProperty = false ∧ e.name = rp.name) ∧
    (∀ e ∈ buildParamSchemas rps,
      e.schema.getField "type" = some (Json.str "object") →
      subPropsOf rps e.name ≠ [] →
      (e.schema.getField "properties" =
          some (Json.obj (buildSubProperties e.name (subPropsOf rps e.name)).1) ∧
        (∀ sp ∈ subPropsOf rps e.name,
          stripParent e.name sp.name ∈
            ((buildSubProperties e.name (subPropsOf rps e.name)).1.map Prod.fst)) ∧
        (∀ pe ∈ (buildSubProperties e.name (subPropsOf rps e.name)).1,
          ∃ sp ∈ subPropsOf rps e.name,
            pe = (stripParent e.name sp.name, createBaseSchema sp)) ∧
        (buildSubProperties e.name (subPropsOf rps e.name)).2 =
          ((subPropsOf rps e.name).filter (fun sp => !sp.isOptional)).map
            (fun sp => stripParent e.name sp.name) ∧
        e.schema.getField "required" =
          (if ((buildSubProperties e.name (subPropsOf rps e.name)).2).length > 0 then
            some (Json.arr
              (((buildSubProperties e.name (subPropsOf rps e.name)).2).map Json.str))
          else none))) := by
  have hmk : ∀ e ∈ buildParamSchemas rps,
      ∃ rp ∈ rps, rp.isProperty = false ∧
        e = (⟨rp.name, rp.description, attachSubProps (topLevelAndProps rps).2 rp,
          rp.enumValues, rp.isOptional⟩ : ParsedParamSchema) := by
    intro e he
    rcases List.mem_map.mp he with ⟨ent, hent, hme⟩
    rcases tl_fst_mem rps ([], []) ent hent with h1 | h2
    · simp at h1
    · obtain ⟨rp, hrp, hp, hee⟩ := h2
      refine ⟨rp, hrp, hp, ?_⟩
      rw [← hme, hee]
  have hpm : (topLevelAndProps rps).2 = rps.filter (fun r => r.isProperty) := by
    have := tl_snd rps ([], [])
    simpa using this
  constructor
  · intro e he
    obtain ⟨rp, hrp, hp, hee⟩ := hmk e he
    exact ⟨rp, hrp, hp, by rw [hee]⟩
  · intro e he htype hsub
    obtain ⟨rp, hrp, hp, hee⟩ := hmk e he
    have hen : e.name = rp.name := by rw [hee]
    have hes : e.schema = attachSubProps (topLevelAndProps rps).2 rp := by rw [hee]
    rw [hes] at htype ⊢
    rw [hen] at hsub ⊢
    have hsubs : ((topLevelAndProps rps).2).filter
        (fun p => strStartsWith p.name (rp.name ++ ".")) = subPropsOf rps rp.name := by
      rw [hpm]; rfl
    simp only [attachSubProps, hsubs] at htype ⊢
    rcases hb : (match (createBaseSchema rp).getField "type" with
      | some (.str v) => v == "object"
      | _ => false) with _ | _
    · exfalso
      rw [hb] at htype
      simp only [Bool.false_eq_true, if_false] at htype
      rw [htype] at hb
      simp at hb
    · rw [hb] at htype ⊢
      simp only [if_pos] at htype ⊢
      have hgt : (subPropsOf rps rp.name).length > 0 := List.length_pos.mpr hsub
      rw [if_pos hgt] at htype ⊢
      have hreq : (buildSubProperties rp.name (subPropsOf rps rp.name)).2 =
          ((subPropsOf rps rp.name).filter (fun sp => !sp.isOptional)).map
            (fun sp => stripParent rp.name sp.name) := by
        have := bsp_snd rp.name (subPropsOf rps rp.name) ([], [])
        simpa using this
      have hkeys : ∀ sp ∈ subPropsOf rps rp.name,
          stripParent rp.name sp.name ∈
            ((buildSubProperties rp.name (subPropsOf rps rp.name)).1.map Prod.fst) := by
        intro sp hsp
        have := (bsp_fst_keys rp.name (subPropsOf rps rp.name) ([], [])
          (stripParent rp.name sp.name)).mpr
        apply this
        right
        exact List.mem_map.mpr ⟨sp, hsp, rfl⟩
      have hentries : ∀ pe ∈ (buildSubProperties rp.name (subPropsOf rps rp.name)).1,
          ∃ sp ∈ subPropsOf rps rp.name,
            pe = (stripParent rp.name sp.name, createBaseSchema sp) := by
        intro pe hpe
        rcases bsp_fst_mem rp.name (subPropsOf rps rp.name) ([], []) pe hpe with h1 | h2
        · simp at h1
        · exact h2
      by_cases hr : (buildSubProperties rp.name (subPropsOf rps rp.name)).2.length > 0
      · rw [if_pos hr]
        refine ⟨?_, hkeys, hentries, hreq, ?_⟩
        · rw [getField_setField_ne _ _ _ _ (by rfl : ("properties" == "required") = false)]
          exact getField_setField_self _ _ _
        · rw [getField_setField_self]
          rw [if_pos hr]
      · rw [if_neg hr]
        refine ⟨?_, hkeys, hentries, hreq, ?_⟩
        · exact getField_setField_self _ _ _
        · rw [getField_setField_ne _ _ _ _ (by rfl : ("required" == "properties") = false)]
          rw [createBaseSchema_required_none]
          rw [if_neg hr]

/-- C3: an untyped-dialect type token outside the closed vocabulary makes
`parseType` throw an error naming the token (all invalid union members at
once, for a pipe-delimited token) and listing the valid set; a failing
`@param` match makes the whole doc-block parse fail; and a failing
non-commented block makes the whole extraction pass return an error, so no
annotation is produced for that source unit. -/
theorem C3_invalid_type_token_aborts :
    (∀ raw : String, containsChar (asciiLower raw) '|' = false →
      (asciiLower raw == "enum") = false →
      JSON_SCHEMA_TYPES.contains (asciiLower raw) = false →
      parseType raw = .error ("Invalid type: " ++ raw ++ ". Valid types are: " ++
        commaJoin JSON_SCHEMA_TYPES ++ ".")) ∧
    (∀ raw : String, containsChar (asciiLower raw) '|' = true →
      invalidUnionMembers raw ≠ [] →
      parseType raw = .error ("Invalid type(s) in union: " ++
        commaJoin (invalidUnionMembers raw) ++ ". Valid types are: " ++
        commaJoin JSON_SCHEMA_TYPES ++ ".")) ∧
    (∀ doc : String,
      (∃ t ∈ scanParamMatches doc, ∃ e, parseType (jsTrim t.1) = .error e) →
      ∃ e, parseDocBlock doc = .error e) ∧
    (∀ blocks : List SrcBlock,
      (∃ b ∈ blocks, isCommentedOut b.fullMatch = false ∧
        ∃ e, parseDocBlock b.docText = .error e) →
      ∃ e, processBlocks blocks = .error e) := by
  refine ⟨?_, ?_, ?_, ?_⟩
  · intro raw h1 h2 h3
    have h3m : asciiLower raw ∉ JSON_SCHEMA_TYPES := by simpa using h3
    simp [parseType, h1, h2, h3, h3m]
  · intro raw h1 h2
    have hl : (invalidUnionMembers raw).length > 0 := List.length_pos.mpr h2
    simp [parseType, h1, hl]
  · intro doc hex
    obtain ⟨t, ht, e, he⟩ := hex
    have hpm : ∃ e2, processParamMatch t.1 t.2.1 t.2.2 = .error e2 :=
      ⟨e, by simp [processParamMatch, he]⟩
    obtain ⟨e2, he2⟩ := hpm
    obtain ⟨e3, he3⟩ := mapExcept_error (fun t => processParamMatch t.1 t.2.1 t.2.2)
      (scanParamMatches doc) ⟨t, ht, e2, he2⟩
    refine ⟨e3, ?_⟩
    simp [parseDocBlock, parseParamAndPropertyLines, he3]
  · intro blocks hex
    induction blocks with
    | nil => simp at hex
    | cons b bs ih =>
      obtain ⟨b', hb', hc', e', he'⟩ := hex
      rcases List.mem_cons.mp hb' with h1 | h2
      · subst h1
        exact ⟨e', by simp [processBlocks, hc', he']⟩
      · obtain ⟨e2, he2⟩ := ih ⟨b', h2, hc', e', he'⟩
        by_cases hcb : isCommentedOut b.fullMatch
        · exact ⟨e2, by simp [processBlocks, hcb, he2]⟩
        · rcases hdb : parseDocBlock b.docText with e3 | pr
          · exact ⟨e3, by simp [processBlocks, hcb, hdb]⟩
          · by_cases hfn : (findNextFunctionName b.remaining == "unknown") = true
            · exact ⟨e2, by simp [processBlocks, hcb, hdb, hfn, he2]⟩
            · simp only [Bool.not_eq_true] at hfn
              exact ⟨e2, by simp [processBlocks, hcb, hdb, hfn, he2]⟩

/-- C3 witness: scenario D. The declaration with the token `obj` fails with
the error naming `obj` and the seven valid tokens, and the whole pass on a
source unit holding that block returns that error instead of annotations. -/
theorem C3_invalid_type_token_aborts_witness :
    parseType "obj" = .error ("Invalid type: obj. Valid types are: " ++
      "string, number, integer, boolean, object, array, null.") ∧
    processBlocks [⟨"@param \x7bobj\x7d user desc", "/** @param \x7bobj\x7d user desc */",
      "function doSomething(user)"⟩] = .error ("Invalid type: obj. Valid types are: " ++
      "string, number, integer, boolean, object, array, null.") := by
  constructor
  · exact C3_invalid_type_token_aborts.1 "obj" rfl rfl rfl
  · exact rfl

/-- C5: when the untyped extraction pass succeeds, its annotations are
exactly what the non-skipped blocks contribute — a block after which no
declaration-shape pattern matches (recovered name `"unknown"`) contributes
nothing — and in particular no returned annotation carries the placeholder
function name `"unknown"`. -/
theorem C5_unknown_blocks_discarded (blocks : List SrcBlock) (anns : List ParsedAnnotationT)
    (h : processBlocks blocks = .ok anns) :
    anns = blocks.filterMap annOf ∧ ∀ a ∈ anns, a.functionName ≠ "unknown" := by
  have main : ∀ (bl : List SrcBlock) (ans : List ParsedAnnotationT),
      processBlocks bl = .ok ans → ans = bl.filterMap annOf := by
    intro bl
    induction bl with
    | nil =>
      intro ans hh
      simp only [processBlocks] at hh
      injection hh with hh2
      simp [hh2.symm]
    | cons b bs ih =>
      intro ans hh
      by_cases hcb : isCommentedOut b.fullMatch
      · simp only [processBlocks, hcb, if_pos] at hh
        rw [List.filterMap_cons]
        simp only [annOf, hcb, if_pos]
        exact ih ans hh
      · simp only [processBlocks, hcb, Bool.false_eq_true, if_false] at hh
        rcases hdb : parseDocBlock b.docText with e | pr
        · rw [hdb] at hh
          simp at hh
        · rw [hdb] at hh
          by_cases hfn : (findNextFunctionName b.remaining == "unknown") = true
          · simp only [hfn, if_pos] at hh
            rw [List.filterMap_cons]
            simp only [annOf, hcb, Bool.false_eq_true, if_false, hdb, hfn, if_pos]
            exact ih ans hh
          · simp only [Bool.not_eq_true] at hfn
            simp only [hfn, Bool.false_eq_true, if_false] at hh
            rcases hpb : processBlocks bs with e2 | rest
            · rw [hpb] at hh
              simp at hh
            · rw [hpb] at hh
              injection hh with hh2
              rw [List.filterMap_cons]
              simp only [annOf, hcb, Bool.false_eq_true, if_false, hdb, hfn]
              rw [← hh2, ← ih rest hpb]
      
  have h1 := main blocks anns h
  refine ⟨h1, ?_⟩
  intro a ha
  rw [h1] at ha
  rcases List.mem_filterMap.mp ha with ⟨b, hb, hab⟩
  by_cases hcb : isCommentedOut b.fullMatch
  · simp [annOf, hcb] at hab
  · rcases hdb : parseDocBlock b.docText with e | pr
    · simp [annOf, hcb, hdb] at hab
    · by_cases hfn : (findNextFunctionName b.remaining == "unknown") = true
      · simp [annOf, hcb, hdb, hfn] at hab
      · simp only [Bool.not_eq_true] at hfn
        simp only [annOf, hcb, Bool.false_eq_true, if_false, hdb, hfn] at hab
        injection hab with hab2
        rw [← hab2]
        intro hcon
        have : (findNextFunctionName b.remaining == "unknown") = true := by
          have hc2 : findNextFunctionName b.remaining = "unknown" := hcon
          rw [hc2]
          rfl
        rw [this] at hfn
        simp at hfn

/-- C5 witness: of two concrete blocks, the one followed by no function
declaration is dropped and the other is kept, with no `"unknown"` entry. -/
theorem C5_unknown_blocks_discarded_witness :
    processBlocks [⟨"hello", "/** hello */", "let x = 1"⟩,
      ⟨"world", "/** world */", "function g(a)"⟩] = .ok [⟨"world", "g", []⟩] ∧
    ([⟨"world", "g", []⟩] : List ParsedAnnotationT) =
      [(⟨"hello", "/** hello */", "let x = 1"⟩ : SrcBlock),
        ⟨"world", "/** world */", "function g(a)"⟩].filterMap annOf ∧
    ∀ a ∈ ([⟨"world", "g", []⟩] : List ParsedAnnotationT), a.functionName ≠ "unknown" := by
  have hpb := C5_unknown_blocks_discarded
    [(⟨"hello", "/** hello */", "let x = 1"⟩ : SrcBlock),
      ⟨"world", "/** world */", "function g(a)"⟩]
    [(⟨"world", "g", []⟩ : ParsedAnnotationT)] rfl
  exact ⟨rfl, hpb.1, hpb.2⟩

/-- C7: when an untyped-dialect enum declaration's bracketed list is
present, the trimmed comma-separated values become the param's enum values
in list order, and the resolved base type is `number` iff every value
parses as a number (else `string`); and the legacy-syntax scenario
`@param enum status [active, inactive]` yields the property `status` as
`(type: string, enum: [active, inactive])` with `status` in the assembled
document's `required` list. -/
theorem C7_enum_declaration :
    (∀ m2 m3 listStr after : String,
      bracketListMatch (jsTrim m3) = some (listStr, after) →
      ∃ rp, processParamMatch "enum" m2 m3 = .ok rp ∧
        rp.enumValues = some ((splitChar ',' listStr.data).map (fun l => jsTrim (String.mk l))) ∧
        rp.type = (if ((splitChar ',' listStr.data).map (fun l => jsTrim (String.mk l))).all
            jsNumberLike then "number" else "string")) ∧
    (parseDocBlockOld "@param enum status [active, inactive]" =
      .ok ("", [⟨"status", "", "string", some ["active", "inactive"]⟩]) ∧
    lookupField (docProps (generateSchema ⟨"", "doSomething",
        [oldParamToSchema ⟨"status", "", "string", some ["active", "inactive"]⟩]⟩)) "status" =
      some (Json.obj [("type", Json.str "string"),
        ("enum", Json.arr [Json.str "active", Json.str "inactive"]),
        ("description", Json.str "")]) ∧
    Json.str "status" ∈ docRequired (generateSchema ⟨"", "doSomething",
        [oldParamToSchema ⟨"status", "", "string", some ["active", "inactive"]⟩]⟩)) := by
  refine ⟨?_, rfl, rfl, ?_⟩
  · intro m2 m3 listStr after hb
    simp only [processParamMatch, hb]
    exact ⟨_, rfl, rfl, rfl⟩
  · exact List.mem_singleton_self _

/-- C7 witness: the current dialect's declaration rest
`[active, inactive] - The status` gives the enum values in order with base
type `string`. -/
theorem C7_enum_declaration_witness :
    bracketListMatch (jsTrim " [active, inactive] - The status") =
      some ("active, inactive", "- The status") ∧
    (∃ rp, processParamMatch "enum" "status" " [active, inactive] - The status" = .ok rp ∧
      rp.enumValues = some ["active", "inactive"] ∧
      rp.type = "string") := by
  constructor
  · rfl
  · obtain ⟨rp, h1, h2, h3⟩ := C7_enum_declaration.1 "status" " [active, inactive] - The status"
      "active, inactive" "- The status" rfl
    exact ⟨rp, h1, h2, h3⟩

/-- C9: the literal token `enum` is exempt from the closed-vocabulary
validation — a declaration `@param (enum-braced) name desc` with no
following bracketed list raises no error and yields a param typed `any`
with no enum values, whose base schema carries `type: any` and no `enum`
key. -/
theorem C9_enum_token_exempt (m2 m3 : String) (h : bracketListMatch (jsTrim m3) = none) :
    ∃ rp, processParamMatch "enum" m2 m3 = .ok rp ∧ rp.type = "any" ∧
      rp.enumValues = none ∧
      (createBaseSchema rp).getField "type" = some (Json.str "any") ∧
      (createBaseSchema rp).getField "enum" = none := by
  simp only [processParamMatch, h]
  exact ⟨_, rfl, rfl, rfl, rfl, rfl⟩

/-- C9 witness: the concrete declaration rest `desc` has no bracketed
list, and the param comes out typed `any` with no enum. -/
theorem C9_enum_token_exempt_witness :
    bracketListMatch (jsTrim "desc") = none ∧
    ∃ rp, processParamMatch "enum" "count" "desc" = .ok rp ∧ rp.type = "any" ∧
      rp.enumValues = none ∧
      (createBaseSchema rp).getField "type" = some (Json.str "any") ∧
      (createBaseSchema rp).getField "enum" = none :=
  ⟨rfl, C9_enum_token_exempt "count" "desc" rfl⟩

/-- C4 counterexample: for a typed-dialect parameter declared
`string | undefined`, the extractor pushes no optionality flag (the record
has the falsy default), so the assembled document's `required` list DOES
contain the parameter's name, against the claim's exclusion. -/
theorem C4_cex_name_still_required :
    docRequired (generateSchema ⟨"", "f",
      expandParameters [.ident "x" (some (.union [.tString, .tUndefined] []))] []⟩) =
      [Json.str "x"] ∧
    (expandParameters [.ident "x" (some (.union [.tString, .tUndefined] []))] []).map
      (fun p => p.isOptional) = [false] := ⟨rfl, rfl⟩

/-- C4 (amended): for a typed-dialect parameter declared
`string | undefined`, the resolver strips the undefined member and the
schema is `(type: string)` with no null/undefined type emitted; but the
typed extractor never sets `isOptional` on top-level parameters (only on
object members), so the parameter is NOT marked optional and its name
appears in the assembled `required` list. -/
theorem C4_undefined_stripped_but_required (n notice fn : String) (tags : List (String × String)) :
    (expandParameters [.ident n (some (.union [.tString, .tUndefined] []))] tags).map
      (fun p => p.schema) = [Json.obj [("type", Json.str "string")]] ∧
    (expandParameters [.ident n (some (.union [.tString, .tUndefined] []))] tags).map
      (fun p => p.isOptional) = [false] ∧
    docRequired (generateSchema ⟨notice, fn,
      expandParameters [.ident n (some (.union [.tString, .tUndefined] []))] tags⟩) =
      [Json.str n] := by
  have hb : buildJsonSchema (.union [.tString, .tUndefined] []) =
      Json.obj [("type", Json.str "string")] := by
    have hrm : (removeUndefinedFromUnion (.union [.tString, .tUndefined] [])).getD
        (.union [.tString, .tUndefined] []) = .tString := rfl
    simp only [buildJsonSchema, hrm]
    simp [buildCore]
  refine ⟨?_, rfl, rfl⟩
  show [buildJsonSchema (.union [.tString, .tUndefined] [])] = _
  rw [hb]
